import Mathlib

/-!
# mcprox: OpenAPI-to-Tool compiler — shallow embedding and verification

This file embeds the core of the `mcprox` repository in Lean 4 and settles the
frozen claims about it:

* the schema normalizer `preprocessOpenAPISpec` with its helpers `fixNullTypes`,
  `fixAnyOf` and `removeNonStandardFields` (internal/openapi/parser.go),
* the tool model builder `processPathsIntoTools` and the identifier derivation
  `sanitizePathForToolID` (internal/mcp/generator/tools.go and the generator),
* the request planner `buildURL` / `createHTTPRequest` / the tool handler, and
* the semantics of the `build_url` Python function emitted by `WriteBuildURL`.

Conventions of the embedding:

* Go's `map[string]interface{}` (a JSON object decoded by `encoding/json`) is
  modelled as an association list `List (String × JVal)`.  Go maps are
  unordered and JSON-decoded maps have no duplicate keys, so `lookupJ` /
  `setKey` / `delKey` below (first-occurrence lookup, in-place update,
  delete-all) implement exactly the map operations the Go code performs.
* JSON numbers are restricted to integers (`Int`); every number appearing in a
  claim is integral, and Go's `%v` / `json.Marshal` of an integral `float64`
  prints plain digits, matching `toString (n : Int)`.
* Functions that Go writes as in-place mutation of the decoded tree are written
  as pure tree-rebuilding functions; decoded JSON trees have no aliasing, so
  this is faithful.
* Recursive tree-repair functions are given a fuel argument (so that they are
  structural and kernel-reducible); the public wrappers pass `fsize g + 1`
  fuel, which is proved sufficient (`fixPropF_congr`, `removeNSFF_congr`): the
  result is independent of the fuel once it exceeds the tree size, so the
  wrappers compute the same function as Go's unbounded recursion.
-/

/-- A decoded JSON value (the `interface{}` tree produced by `json.Unmarshal`). -/
inductive JVal where
  | null
  | bool (b : Bool)
  | num (n : Int)
  | str (s : String)
  | arr (xs : List JVal)
  | obj (fs : List (String × JVal))

mutual
/-- Boolean equality on JSON values. -/
def JVal.beq : JVal → JVal → Bool
  | .null, .null => true
  | .bool a, .bool b => a = b
  | .num a, .num b => a = b
  | .str a, .str b => a = b
  | .arr a, .arr b => JVal.beqL a b
  | .obj a, .obj b => JVal.beqF a b
  | _, _ => false
def JVal.beqL : List JVal → List JVal → Bool
  | [], [] => true
  | a :: as, b :: bs => JVal.beq a b && JVal.beqL as bs
  | _, _ => false
def JVal.beqF : List (String × JVal) → List (String × JVal) → Bool
  | [], [] => true
  | (k, a) :: as, (k', b) :: bs => k = k' && JVal.beq a b && JVal.beqF as bs
  | _, _ => false
end

mutual
theorem JVal.beq_iff : ∀ a b : JVal, JVal.beq a b = true ↔ a = b
  | .null, b => by cases b <;> simp [JVal.beq]
  | .bool x, b => by cases b <;> simp [JVal.beq]
  | .num x, b => by cases b <;> simp [JVal.beq]
  | .str x, b => by cases b <;> simp [JVal.beq]
  | .arr xs, b => by
      cases b <;> simp [JVal.beq]
      exact JVal.beqL_iff xs _
  | .obj fs, b => by
      cases b <;> simp [JVal.beq]
      exact JVal.beqF_iff fs _
theorem JVal.beqL_iff : ∀ a b : List JVal, JVal.beqL a b = true ↔ a = b
  | [], b => by cases b <;> simp [JVal.beqL]
  | x :: xs, b => by
      cases b with
      | nil => simp [JVal.beqL]
      | cons y ys => simp [JVal.beqL, JVal.beq_iff x y, JVal.beqL_iff xs ys]
theorem JVal.beqF_iff : ∀ a b : List (String × JVal), JVal.beqF a b = true ↔ a = b
  | [], b => by cases b <;> simp [JVal.beqF]
  | (k, x) :: xs, b => by
      cases b with
      | nil => simp [JVal.beqF]
      | cons p ys =>
        obtain ⟨k', y⟩ := p
        simp [JVal.beqF, JVal.beq_iff x y, JVal.beqF_iff xs ys, and_assoc]
end

instance : DecidableEq JVal := fun a b =>
  decidable_of_iff (JVal.beq a b = true) (JVal.beq_iff a b)

mutual
/-- Size of a JSON value (scalars count 1). -/
def jsize : JVal → Nat
  | .null => 1 | .bool _ => 1 | .num _ => 1 | .str _ => 1
  | .arr xs => 1 + lsize xs
  | .obj fs => 1 + fsize fs
/-- Size of a JSON array's elements. -/
def lsize : List JVal → Nat
  | [] => 0
  | v :: vs => 1 + jsize v + lsize vs
/-- Size of a JSON object's fields. -/
def fsize : List (String × JVal) → Nat
  | [] => 0
  | (_, v) :: fs => 1 + jsize v + fsize fs
end

/-- `m[k]` on a decoded Go map: value of the first entry with key `k`. -/
def lookupJ (fs : List (String × JVal)) (k : String) : Option JVal :=
  match fs with
  | [] => none
  | (k', v) :: fs => if k' = k then some v else lookupJ fs k

/-- `m[k] = v` on a decoded Go map: replace the first entry with key `k`
(keeping its position), or append a new entry. -/
def setKey (fs : List (String × JVal)) (k : String) (v : JVal) :
    List (String × JVal) :=
  match fs with
  | [] => [(k, v)]
  | (k', v') :: fs => if k' = k then (k', v) :: fs else (k', v') :: setKey fs k v

/-- `delete(m, k)` on a decoded Go map. -/
def delKey (fs : List (String × JVal)) (k : String) : List (String × JVal) :=
  match fs with
  | [] => []
  | (k', v') :: fs => if k' = k then delKey fs k else (k', v') :: delKey fs k

theorem lookupJ_setKey_self (fs : List (String × JVal)) (k : String) (v : JVal) :
    lookupJ (setKey fs k v) k = some v := by
  induction fs with
  | nil => simp [setKey, lookupJ]
  | cons p fs ih =>
    obtain ⟨k', v'⟩ := p
    by_cases h : k' = k <;> simp [setKey, lookupJ, h, ih]

theorem lookupJ_setKey_ne (fs : List (String × JVal)) (k k' : String) (v : JVal)
    (h : k ≠ k') : lookupJ (setKey fs k v) k' = lookupJ fs k' := by
  induction fs with
  | nil => simp [setKey, lookupJ, h]
  | cons p fs ih =>
    obtain ⟨k₀, v₀⟩ := p
    by_cases h₀ : k₀ = k
    · subst h₀; simp [setKey, lookupJ, h, ih]
    · simp only [setKey, if_neg h₀]
      by_cases h₁ : k₀ = k' <;> simp [lookupJ, h₁, ih]

theorem lookupJ_delKey_self (fs : List (String × JVal)) (k : String) :
    lookupJ (delKey fs k) k = none := by
  induction fs with
  | nil => simp [delKey, lookupJ]
  | cons p fs ih =>
    obtain ⟨k₀, v₀⟩ := p
    by_cases h : k₀ = k <;> simp [delKey, lookupJ, h, ih]

theorem lookupJ_delKey_ne (fs : List (String × JVal)) (k k' : String)
    (h : k ≠ k') : lookupJ (delKey fs k) k' = lookupJ fs k' := by
  induction fs with
  | nil => simp [delKey, lookupJ]
  | cons p fs ih =>
    obtain ⟨k₀, v₀⟩ := p
    by_cases h₀ : k₀ = k
    · subst h₀
      rw [delKey, if_pos rfl, ih, lookupJ, if_neg h]
    · rw [delKey, if_neg h₀]
      by_cases h₁ : k₀ = k' <;> simp [lookupJ, h₁, ih]

/-- Writing back the value already stored under `k` changes nothing. -/
theorem setKey_self (fs : List (String × JVal)) (k : String) (v : JVal)
    (h : lookupJ fs k = some v) : setKey fs k v = fs := by
  induction fs with
  | nil => simp [lookupJ] at h
  | cons p fs ih =>
    obtain ⟨k₀, v₀⟩ := p
    by_cases h₀ : k₀ = k
    · simp only [lookupJ, if_pos h₀] at h
      cases h
      simp [setKey, h₀]
    · simp only [lookupJ, if_neg h₀] at h
      simp [setKey, h₀, ih h]

theorem delKey_of_lookup_none (fs : List (String × JVal)) (k : String)
    (h : lookupJ fs k = none) : delKey fs k = fs := by
  induction fs with
  | nil => simp [delKey]
  | cons p fs ih =>
    obtain ⟨k₀, v₀⟩ := p
    by_cases h₀ : k₀ = k
    · simp [lookupJ, h₀] at h
    · simp only [lookupJ, if_neg h₀] at h
      simp [delKey, h₀, ih h]

theorem lookupJ_mem {fs : List (String × JVal)} {k : String} {v : JVal}
    (h : lookupJ fs k = some v) : (k, v) ∈ fs := by
  induction fs with
  | nil => simp [lookupJ] at h
  | cons p fs ih =>
    obtain ⟨k₀, v₀⟩ := p
    by_cases h₀ : k₀ = k
    · simp only [lookupJ, if_pos h₀] at h
      cases h
      subst h₀; simp
    · simp only [lookupJ, if_neg h₀] at h
      exact List.mem_cons_of_mem _ (ih h)

theorem jsize_pos (v : JVal) : 0 < jsize v := by
  cases v <;> (simp only [jsize]; omega)

theorem fsize_of_mem {fs : List (String × JVal)} {k : String} {v : JVal}
    (h : (k, v) ∈ fs) : 1 + jsize v ≤ fsize fs := by
  induction fs with
  | nil => simp at h
  | cons p fs ih =>
    obtain ⟨k₀, v₀⟩ := p
    rcases List.mem_cons.mp h with h | h
    · cases h
      simp only [fsize]; omega
    · have h1 := ih h
      have h2 := jsize_pos v₀
      simp only [fsize]; omega

theorem fsize_of_lookup {fs : List (String × JVal)} {k : String} {v : JVal}
    (h : lookupJ fs k = some v) : 1 + jsize v ≤ fsize fs :=
  fsize_of_mem (lookupJ_mem h)

theorem lsize_of_mem {xs : List JVal} {v : JVal} (h : v ∈ xs) :
    1 + jsize v ≤ lsize xs := by
  induction xs with
  | nil => simp at h
  | cons x xs ih =>
    rcases List.mem_cons.mp h with h | h
    · subst h
      simp only [lsize]; omega
    · have h1 := ih h
      have h2 := jsize_pos x
      simp only [lsize]; omega

/-! ## String utilities

Go's `strings` functions are modelled over character lists so that every
operation is structural and kernel-reducible.  Lean's `String` order agrees
with Go's byte-wise order (UTF-8 preserves code-point order). -/

/-- Byte-wise (code-point-wise) "less than" on character lists. -/
def charListLt : List Char → List Char → Bool
  | [], [] => false
  | [], _ :: _ => true
  | _ :: _, [] => false
  | a :: as, b :: bs => if a < b then true else if b < a then false else charListLt as bs

/-- Computable `≤` on strings (Go's `sort.Strings` comparison). -/
def strLeB (a b : String) : Bool := !(charListLt b.data a.data)

theorem charListLt_iff : ∀ as bs : List Char, charListLt as bs = true ↔ as < bs := by
  intro as
  induction as with
  | nil =>
    intro bs
    cases bs with
    | nil =>
      simp only [charListLt]
      constructor
      · intro h; cases h
      · intro h; cases h
    | cons b bs =>
      simp only [charListLt]
      constructor
      · intro _; exact List.Lex.nil
      · intro _; trivial
  | cons a as ih =>
    intro bs
    cases bs with
    | nil =>
      simp only [charListLt]
      constructor
      · intro h; cases h
      · intro h; cases h
    | cons b bs =>
      simp only [charListLt]
      rcases lt_trichotomy a b with hab | heq | hba
      · simp only [if_pos hab]
        constructor
        · intro _; exact List.Lex.rel hab
        · intro _; trivial
      · subst heq
        simp only [if_neg (lt_irrefl a)]
        rw [ih bs]
        constructor
        · intro h; exact List.Lex.cons h
        · intro h
          cases h with
          | cons h => exact h
          | rel h => exact absurd h (lt_irrefl a)
      · rw [if_neg (lt_asymm hba), if_pos hba]
        constructor
        · intro h; cases h
        · intro h
          cases h with
          | cons h => exact absurd hba (lt_irrefl _)
          | rel h => exact absurd hba (lt_asymm h)

theorem strLeB_iff (a b : String) : strLeB a b = true ↔ a ≤ b := by
  have h : b < a ↔ b.data < a.data := String.lt_iff_toList_lt
  rw [strLeB, Bool.not_eq_true']
  constructor
  · intro hnot
    by_contra hle
    rw [not_le] at hle
    rw [← Bool.not_eq_true, charListLt_iff] at hnot
    exact hnot (h.mp hle)
  · intro hle
    rw [← Bool.not_eq_true, charListLt_iff]
    intro hlt
    exact absurd (h.mpr hlt) (not_lt.mpr hle)

/-- `sep.join`-style concatenation (`strings.Join` / Python `"&".join`). -/
def joinSep (sep : String) : List String → String
  | [] => ""
  | [x] => x
  | x :: xs => x ++ sep ++ joinSep sep xs

/-- Is `p` a prefix of `s` (on characters)? -/
def isPfx : List Char → List Char → Bool
  | [], _ => true
  | _ :: _, [] => false
  | a :: as, b :: bs => a = b && isPfx as bs

/-- Go `strings.HasPrefix`. -/
def hasPfx (s p : String) : Bool := isPfx p.data s.data

/-- Go `strings.HasSuffix`. -/
def hasSfx (s p : String) : Bool := isPfx p.data.reverse s.data.reverse

/-- One step of scanning: drop `n` characters. -/
def dropChars : Nat → List Char → List Char
  | 0, cs => cs
  | _ + 1, [] => []
  | n + 1, _ :: cs => dropChars n cs

/-- Replace every (non-overlapping, left-to-right) occurrence of `pat` in `s`
    by `rep`: Go `strings.ReplaceAll` / Python `str.replace` for a non-empty
    pattern.  Structural on a fuel that bounds the scan length. -/
def replChars (pat rep : List Char) : Nat → List Char → List Char
  | 0, cs => cs
  | _ + 1, [] => []
  | n + 1, c :: cs =>
    if isPfx pat (c :: cs) then rep ++ replChars pat rep n (dropChars (pat.length - 1) cs)
    else c :: replChars pat rep n cs

/-- Go `strings.ReplaceAll s pat rep` (`pat` non-empty in every use below). -/
def replaceAll (s pat rep : String) : String :=
  String.mk (replChars pat.data rep.data s.data.length s.data)

/-- Does `s` contain `pat` as a substring (Python `pat in s`, `pat` non-empty)? -/
def containsSub : List Char → List Char → Bool
  | [], _ => false
  | c :: cs, pat => isPfx pat (c :: cs) || containsSub cs pat

/-- Python `pat in s` for strings. -/
def containsStr (s pat : String) : Bool := containsSub s.data pat.data

/-- Go `strings.ToLower` (ASCII inputs in this code base). -/
def lowerStr (s : String) : String := String.mk (s.data.map Char.toLower)

/-! ## Schema Normalizer (internal/openapi/parser.go)

`fixAnyOf`, `fixNullTypes`, `removeNonStandardFields` and
`preprocessOpenAPISpec` translated from the Go source.  The Go functions
mutate `map[string]interface{}` trees in place; here they rebuild the tree. -/

/-- Is this alternative `{type: "null"}`-typed (Go: `typeVal == "null"`)? -/
def isNullAlt (v : JVal) : Bool :=
  match v with
  | .obj fs => lookupJ fs "type" = some (.str "null")
  | _ => false

/-- The fields of an alternative whose `type` is a string other than `"null"`
(Go: the `else if _, ok := typeVal.(string)` branch setting `mainType`). -/
def mainAltFields (v : JVal) : Option (List (String × JVal)) :=
  match v with
  | .obj fs =>
    match lookupJ fs "type" with
    | some (.str t) => if t = "null" then none else some fs
    | _ => none
  | _ => none

/-- Go's scan over the two `anyOf` members: `mainType` is overwritten in
iteration order, so the second member wins when both qualify. -/
def mainOf (a b : JVal) : Option (List (String × JVal)) :=
  match mainAltFields b with
  | some m => some m
  | none => mainAltFields a

/-- `for k, v := range mainType { schema[k] = v }`. -/
def copyFields (g m : List (String × JVal)) : List (String × JVal) :=
  m.foldl (fun acc kv => setKey acc kv.1 kv.2) g

/-- Does `fixAnyOf` fire on this schema object: a two-element `anyOf` with a
`{type: "null"}` member and a member whose `type` is a non-"null" string? -/
def fixable (g : List (String × JVal)) : Bool :=
  match lookupJ g "anyOf" with
  | some (.arr [a, b]) => (isNullAlt a || isNullAlt b) && (mainOf a b).isSome
  | _ => false

/-- Go `fixAnyOf`: rewrite a two-element null-union `anyOf` into the non-null
alternative's fields plus `nullable: true`, removing `anyOf`. -/
def fixAnyOf (g : List (String × JVal)) : List (String × JVal) :=
  match lookupJ g "anyOf" with
  | some (.arr [a, b]) =>
    if isNullAlt a || isNullAlt b then
      match mainOf a b with
      | some m => delKey (setKey (copyFields g m) "nullable" (.bool true)) "anyOf"
      | none => g
    else g
  | _ => g

/-- Apply `f` to an object-valued map entry, leave other entries alone
(Go's `if propObj, ok := propValue.(map[string]interface{}); ok`). -/
def mapPropEntry (f : List (String × JVal) → List (String × JVal)) :
    String × JVal → String × JVal
  | (k, JVal.obj h) => (k, JVal.obj (f h))
  | kv => kv

/-- The `properties` traversal shared by `fixNullTypes` and
`removeNonStandardFields`: apply `f` to every object-valued entry of an
object-valued `properties` member. -/
def propsStep (f : List (String × JVal) → List (String × JVal))
    (g : List (String × JVal)) : List (String × JVal) :=
  match lookupJ g "properties" with
  | some (JVal.obj ps) => setKey g "properties" (JVal.obj (ps.map (mapPropEntry f)))
  | _ => g

/-- The action Go `fixNullTypes` applies to each object-valued `properties`
entry: `fixAnyOf` if the entry has an `anyOf` key, then recurse into the
entry's own `properties`.  Structural on the fuel; `fixProp` below supplies
fuel exceeding the tree size, which `fixPropF_congr` proves sufficient. -/
def fixPropF : Nat → List (String × JVal) → List (String × JVal)
  | 0, g => g
  | n + 1, g =>
    propsStep (fixPropF n) (if (lookupJ g "anyOf").isSome then fixAnyOf g else g)

/-- The per-property action with enough fuel for its whole subtree. -/
def fixProp (g : List (String × JVal)) : List (String × JVal) :=
  fixPropF (fsize g + 1) g

/-- Go `fixNullTypes`: apply `fixProp` to every object-valued entry of the
schema's `properties` (the schema object itself is not rewritten). -/
def fixNullTypes (g : List (String × JVal)) : List (String × JVal) :=
  propsStep fixProp g

/-- The `items` part of `removeNonStandardFields`: recurse into an
object-valued `items` member (`itemsv` is looked up before the `properties`
rewrite, which cannot change it). -/
def itemsStep (f : List (String × JVal) → List (String × JVal))
    (itemsv : Option JVal) (g : List (String × JVal)) : List (String × JVal) :=
  match itemsv with
  | some (JVal.obj h) => setKey g "items" (JVal.obj (f h))
  | _ => g

/-- Go `removeNonStandardFields`: delete the deny-listed keys at this level,
then recurse into object-valued `properties` entries and into an object-valued
`items`.  Structural on the fuel (see `removeNSFF_congr`). -/
def removeNSFF : Nat → List (String × JVal) → List (String × JVal)
  | 0, g => g
  | n + 1, g =>
    let g1 := delKey (delKey g "error_messages") "hide_error_details"
    itemsStep (removeNSFF n) (lookupJ g1 "items") (propsStep (removeNSFF n) g1)

/-- `removeNonStandardFields` with enough fuel for its whole subtree. -/
def removeNSF (g : List (String × JVal)) : List (String × JVal) :=
  removeNSFF (fsize g + 1) g

mutual
/-- No object anywhere in this JSON value is a fixable null-union
(the "document contains no null-unions" hypothesis of the spec). -/
def noNullUnionsV : JVal → Bool
  | .obj fs => !(fixable fs) && noNullUnionsF fs
  | .arr xs => noNullUnionsL xs
  | _ => true
def noNullUnionsL : List JVal → Bool
  | [] => true
  | v :: vs => noNullUnionsV v && noNullUnionsL vs
def noNullUnionsF : List (String × JVal) → Bool
  | [] => true
  | (_, v) :: fs => noNullUnionsV v && noNullUnionsF fs
end

/-- The per-schema processing of `preprocessOpenAPISpec` over
`components.schemas`: `fixNullTypes` then `removeNonStandardFields`
(only applied to object-valued schemas, as the Go type assertion does). -/
def procSchemaV : JVal → JVal
  | .obj g => .obj (removeNSF (fixNullTypes g))
  | v => v

/-- Version rewrite: a string `openapi` field with prefix `"3.1"` becomes
`"3.0.0"`. -/
def stepVersion (spec : List (String × JVal)) : List (String × JVal) :=
  match lookupJ spec "openapi" with
  | some (.str v) =>
    if hasPfx v "3.1" then setKey spec "openapi" (.str "3.0.0") else spec
  | _ => spec

/-- The `components.schemas` traversal of `preprocessOpenAPISpec`. -/
def stepSchemas (spec : List (String × JVal)) : List (String × JVal) :=
  match lookupJ spec "components" with
  | some (.obj cs) =>
    match lookupJ cs "schemas" with
    | some (.obj ss) =>
      setKey spec "components" (.obj (setKey cs "schemas"
        (.obj (ss.map (fun kv => (kv.1, procSchemaV kv.2))))))
    | _ => spec
  | _ => spec

/-- Per-parameter action of the `paths` traversal: `fixAnyOf` on an
object-valued `schema` member. -/
def procParamV : JVal → JVal
  | .obj p =>
    match lookupJ p "schema" with
    | some (.obj s) => .obj (setKey p "schema" (.obj (fixAnyOf s)))
    | _ => .obj p
  | v => v

/-- Per-method action: map `procParamV` over an array-valued `parameters`. -/
def procMethodV : JVal → JVal
  | .obj m =>
    match lookupJ m "parameters" with
    | some (.arr ps) => .obj (setKey m "parameters" (.arr (ps.map procParamV)))
    | _ => .obj m
  | v => v

/-- Per-path-item action: apply `procMethodV` to every member value. -/
def procPathItemV : JVal → JVal
  | .obj pi => .obj (pi.map (fun kv => (kv.1, procMethodV kv.2)))
  | v => v

/-- The `paths` traversal of `preprocessOpenAPISpec` (fix `anyOf` in
operation parameters). -/
def stepParams (spec : List (String × JVal)) : List (String × JVal) :=
  match lookupJ spec "paths" with
  | some (.obj paths) =>
    setKey spec "paths" (.obj (paths.map (fun kv => (kv.1, procPathItemV kv.2))))
  | _ => spec

/-- The tree transformation of `preprocessOpenAPISpec` (steps between the
JSON decode and re-encode), in Go's order: version rewrite, then
`components.schemas`, then operation parameters. -/
def preprocessSpecTree (spec : List (String × JVal)) : List (String × JVal) :=
  stepParams (stepSchemas (stepVersion spec))

/-! ### Fuel adequacy

The fuel passed by `fixProp` / `removeNSF` exceeds the tree size, and the
lemmas below show the result no longer depends on the fuel from there on, so
the wrappers compute Go's unbounded recursion. -/

theorem fsize_delKey_le (fs : List (String × JVal)) (k : String) :
    fsize (delKey fs k) ≤ fsize fs := by
  induction fs with
  | nil => simp [delKey]
  | cons p fs ih =>
    obtain ⟨k₀, v₀⟩ := p
    by_cases h : k₀ = k
    · simp only [delKey, if_pos h, fsize]
      have := jsize_pos v₀
      omega
    · simp only [delKey, if_neg h, fsize]
      omega

theorem lookup_copyFields {g m : List (String × JVal)} {k : String} {v : JVal}
    (h : lookupJ (copyFields g m) k = some v) :
    (k, v) ∈ m ∨ lookupJ g k = some v := by
  induction m generalizing g with
  | nil => exact Or.inr h
  | cons p m ih =>
    obtain ⟨k₀, v₀⟩ := p
    simp only [copyFields, List.foldl_cons] at h
    rcases ih h with hm | hg
    · exact Or.inl (List.mem_cons_of_mem _ hm)
    · by_cases hk : k₀ = k
      · subst hk
        rw [lookupJ_setKey_self] at hg
        cases hg
        exact Or.inl (List.mem_cons_self _ _)
      · rw [lookupJ_setKey_ne _ _ _ _ hk] at hg
        exact Or.inr hg

theorem mainAltFields_shape {v : JVal} {m : List (String × JVal)}
    (h : mainAltFields v = some m) : v = .obj m := by
  cases v with
  | obj fs =>
    simp only [mainAltFields] at h
    split at h
    case h_1 t hty =>
      split at h
      · cases h
      · cases h; rfl
    case h_2 => cases h
  | null => simp [mainAltFields] at h
  | bool b => simp [mainAltFields] at h
  | num n => simp [mainAltFields] at h
  | str s => simp [mainAltFields] at h
  | arr xs => simp [mainAltFields] at h

theorem mainOf_shape {a b : JVal} {m : List (String × JVal)}
    (h : mainOf a b = some m) : a = .obj m ∨ b = .obj m := by
  unfold mainOf at h
  revert h
  cases hb : mainAltFields b with
  | some mb => intro h; cases h; exact Or.inr (mainAltFields_shape hb)
  | none => intro h; exact Or.inl (mainAltFields_shape h)

/-- Every value readable from `fixAnyOf g` is strictly smaller than `g`:
the copied fields come from inside `g`'s own `anyOf` array. -/
theorem lookup_fixAnyOf_size {g : List (String × JVal)} {k : String} {v : JVal}
    (h : lookupJ (fixAnyOf g) k = some v) : 1 + jsize v ≤ fsize g := by
  unfold fixAnyOf at h
  split at h
  case h_2 => exact fsize_of_lookup h
  case h_1 a b heq =>
    split at h
    case isFalse => exact fsize_of_lookup h
    case isTrue =>
      split at h
      case h_2 => exact fsize_of_lookup h
      case h_1 m hm =>
        have hanyOf : 1 + jsize (JVal.arr [a, b]) ≤ fsize g := fsize_of_lookup heq
        by_cases hk : k = "anyOf"
        · subst hk; rw [lookupJ_delKey_self] at h; cases h
        · rw [lookupJ_delKey_ne _ _ _ (fun hh => hk hh.symm)] at h
          by_cases hn : k = "nullable"
          · subst hn
            rw [lookupJ_setKey_self] at h
            cases h
            have hja := jsize_pos a
            have hjb := jsize_pos b
            simp only [jsize, lsize] at hanyOf
            simp only [jsize]
            omega
          · rw [lookupJ_setKey_ne _ _ _ _ (fun hh => hn hh.symm)] at h
            rcases lookup_copyFields h with hmem | hg
            · have hvm : 1 + jsize v ≤ fsize m := fsize_of_mem hmem
              rcases mainOf_shape hm with hs | hs
              · subst hs
                have hjb := jsize_pos b
                simp only [jsize, lsize] at hanyOf
                omega
              · subst hs
                have hja := jsize_pos a
                simp only [jsize, lsize] at hanyOf
                omega
            · exact fsize_of_lookup hg

/-- The object read as `properties` after the optional `fixAnyOf` step stays
bounded by the size of the original property object. -/
theorem lookup_afterFix_size {g : List (String × JVal)} {k : String} {v : JVal}
    (h : lookupJ (if (lookupJ g "anyOf").isSome then fixAnyOf g else g) k = some v) :
    1 + jsize v ≤ fsize g := by
  split at h
  · exact lookup_fixAnyOf_size h
  · exact fsize_of_lookup h

/-- `propsStep` only depends on `f`'s values at object-valued `properties`
entries. -/
theorem propsStep_congr {f f' : List (String × JVal) → List (String × JVal)}
    {g : List (String × JVal)}
    (hf : ∀ ps k h', lookupJ g "properties" = some (JVal.obj ps) →
      (k, JVal.obj h') ∈ ps → f h' = f' h') :
    propsStep f g = propsStep f' g := by
  unfold propsStep
  split
  case h_1 ps hps =>
    congr 2
    apply List.map_congr_left
    intro kv hkv
    obtain ⟨k, v⟩ := kv
    cases v <;> simp only [mapPropEntry]
    case obj h' => rw [hf ps k h' hps hkv]
  case h_2 => rfl

/-- `itemsStep` only depends on `f`'s value at an object-valued `items`. -/
theorem itemsStep_congr {f f' : List (String × JVal) → List (String × JVal)}
    {itemsv : Option JVal} {g : List (String × JVal)}
    (hf : ∀ h', itemsv = some (JVal.obj h') → f h' = f' h') :
    itemsStep f itemsv g = itemsStep f' itemsv g := by
  unfold itemsStep
  split
  case h_1 h' => rw [hf h' rfl]
  case h_2 => rfl

theorem fixPropF_congr : ∀ n m : Nat, ∀ g : List (String × JVal),
    fsize g < n → fsize g < m → fixPropF n g = fixPropF m g := by
  intro n
  induction n with
  | zero => intro m g h _; omega
  | succ n ih =>
    intro m g hn hm
    cases m with
    | zero => omega
    | succ m =>
      simp only [fixPropF]
      apply propsStep_congr
      intro ps k h' hps hmem
      have h1 : 1 + jsize (JVal.obj ps) ≤ fsize g := lookup_afterFix_size hps
      have h2 : 1 + jsize (JVal.obj h') ≤ fsize ps := fsize_of_mem hmem
      simp only [jsize] at h1 h2
      exact ih m h' (by omega) (by omega)

/-- With fuel exceeding the tree size, `fixPropF` computes `fixProp`. -/
theorem fixPropF_eq {n : Nat} {g : List (String × JVal)} (h : fsize g < n) :
    fixPropF n g = fixProp g :=
  fixPropF_congr n (fsize g + 1) g h (Nat.lt_succ_self _)

theorem removeNSFF_congr : ∀ n m : Nat, ∀ g : List (String × JVal),
    fsize g < n → fsize g < m → removeNSFF n g = removeNSFF m g := by
  intro n
  induction n with
  | zero => intro m g h _; omega
  | succ n ih =>
    intro m g hn hm
    cases m with
    | zero => omega
    | succ m =>
      simp only [removeNSFF]
      have hdel : fsize (delKey (delKey g "error_messages") "hide_error_details")
          ≤ fsize g :=
        le_trans (fsize_delKey_le _ _) (fsize_delKey_le _ _)
      have hprops : propsStep (removeNSFF n)
            (delKey (delKey g "error_messages") "hide_error_details") =
          propsStep (removeNSFF m)
            (delKey (delKey g "error_messages") "hide_error_details") := by
        apply propsStep_congr
        intro ps k h' hps hmem
        have h1 := fsize_of_lookup hps
        have h2 : 1 + jsize (JVal.obj h') ≤ fsize ps := fsize_of_mem hmem
        simp only [jsize] at h1 h2
        exact ih m h' (by omega) (by omega)
      rw [hprops]
      apply itemsStep_congr
      intro h' hitems
      have h1 := fsize_of_lookup hitems
      simp only [jsize] at h1
      exact ih m h' (by omega) (by omega)

/-- With fuel exceeding the tree size, `removeNSFF` computes `removeNSF`. -/
theorem removeNSFF_eq {n : Nat} {g : List (String × JVal)} (h : fsize g < n) :
    removeNSFF n g = removeNSF g :=
  removeNSFF_congr n (fsize g + 1) g h (Nat.lt_succ_self _)

/-! ### What the repair steps do and do not touch -/

theorem lookup_propsStep_ne {f : List (String × JVal) → List (String × JVal)}
    {g : List (String × JVal)} {k : String} (hk : k ≠ "properties") :
    lookupJ (propsStep f g) k = lookupJ g k := by
  unfold propsStep
  split
  case h_1 ps hps => exact lookupJ_setKey_ne _ _ _ _ (fun h => hk h.symm)
  case h_2 => rfl

theorem lookup_itemsStep_ne {f : List (String × JVal) → List (String × JVal)}
    {itemsv : Option JVal} {g : List (String × JVal)} {k : String}
    (hk : k ≠ "items") : lookupJ (itemsStep f itemsv g) k = lookupJ g k := by
  unfold itemsStep
  split
  case h_1 h' => exact lookupJ_setKey_ne _ _ _ _ (fun h => hk h.symm)
  case h_2 => rfl

theorem lookup_delKey2_ne {g : List (String × JVal)} {k : String}
    (h1 : k ≠ "error_messages") (h2 : k ≠ "hide_error_details") :
    lookupJ (delKey (delKey g "error_messages") "hide_error_details") k =
      lookupJ g k := by
  rw [lookupJ_delKey_ne _ _ _ (fun h => h2 h.symm),
    lookupJ_delKey_ne _ _ _ (fun h => h1 h.symm)]

/-- How `propsStep` rewrites the `properties` member itself. -/
theorem lookup_propsStep_props {f : List (String × JVal) → List (String × JVal)}
    {g : List (String × JVal)} :
    lookupJ (propsStep f g) "properties" =
      (lookupJ g "properties").map (fun v =>
        match v with
        | JVal.obj ps => JVal.obj (ps.map (mapPropEntry f))
        | v => v) := by
  unfold propsStep
  split
  case h_1 ps hps => rw [lookupJ_setKey_self, hps]; rfl
  case h_2 hother =>
    cases hv : lookupJ g "properties" with
    | none => rfl
    | some v =>
      cases v <;> first
        | rfl
        | (exact absurd hv (hother _))

/-- How `itemsStep` rewrites the `items` member. -/
theorem lookup_itemsStep_items {f : List (String × JVal) → List (String × JVal)}
    {itemsv : Option JVal} {g : List (String × JVal)} :
    lookupJ (itemsStep f itemsv g) "items" =
      match itemsv with
      | some (JVal.obj h) => some (JVal.obj (f h))
      | _ => lookupJ g "items" := by
  unfold itemsStep
  split
  case h_1 h' => rw [lookupJ_setKey_self]
  case h_2 hother => rfl

/-- `fixable` depends only on the `anyOf` member. -/
theorem fixable_congr {g g' : List (String × JVal)}
    (h : lookupJ g "anyOf" = lookupJ g' "anyOf") : fixable g = fixable g' := by
  unfold fixable
  rw [h]

/-- If the null-union pattern does not match, `fixAnyOf` is the identity. -/
theorem fixAnyOf_eq_self {g : List (String × JVal)} (h : fixable g = false) :
    fixAnyOf g = g := by
  unfold fixable at h
  unfold fixAnyOf
  split
  case h_2 => rfl
  case h_1 a b heq =>
    rw [heq] at h
    simp only [Bool.and_eq_false_iff] at h
    split
    case isFalse => rfl
    case isTrue hnull =>
      rcases h with h | h
      · rw [hnull] at h; cases h
      · split
        case h_2 => rfl
        case h_1 m hm => rw [hm] at h; cases h

/-- When `fixAnyOf` fires, it removes the `anyOf` key. -/
theorem fixAnyOf_no_anyOf {g : List (String × JVal)} (h : fixable g = true) :
    lookupJ (fixAnyOf g) "anyOf" = none := by
  unfold fixable at h
  split at h
  case h_2 => cases h
  case h_1 a b heq =>
    simp only [Bool.and_eq_true] at h
    rcases hm : mainOf a b with _ | m
    · rw [hm] at h
      simp at h
    · simp only [fixAnyOf, heq, h.1, if_true, hm]
      exact lookupJ_delKey_self _ _

/-! ### The normalization invariant on `properties`-reachable nodes -/

/-- `PropReach g h`: the schema object `h` is reachable from the schema object
`g` through one or more `properties.*` steps (the traversal `fixNullTypes`
performs). -/
inductive PropReach : List (String × JVal) → List (String × JVal) → Prop
  | here {g ps k h} : lookupJ g "properties" = some (JVal.obj ps) →
      (k, JVal.obj h) ∈ ps → PropReach g h
  | there {g ps k h h'} : lookupJ g "properties" = some (JVal.obj ps) →
      (k, JVal.obj h) ∈ ps → PropReach h h' → PropReach g h'

/-- Membership in a `mapPropEntry`-mapped list comes from an object entry. -/
theorem mem_mapPropEntry {f : List (String × JVal) → List (String × JVal)}
    {ps : List (String × JVal)} {k : String} {h : List (String × JVal)}
    (hm : (k, JVal.obj h) ∈ ps.map (mapPropEntry f)) :
    ∃ h₀, (k, JVal.obj h₀) ∈ ps ∧ h = f h₀ := by
  rcases List.mem_map.mp hm with ⟨⟨k₀, v⟩, hv, heq⟩
  cases v <;> simp only [mapPropEntry] at heq
  case obj h₀ =>
    injection heq with hk hval
    injection hval with hh
    exact ⟨h₀, hk ▸ hv, hh.symm⟩
  all_goals (injection heq with hk hval; cases hval)

/-- After one application of the per-property action the node itself is not a
fixable null-union (the `anyOf` key was removed or never matched). -/
theorem fixPropF_root {n : Nat} {g : List (String × JVal)} :
    fixable (fixPropF (n + 1) g) = false := by
  simp only [fixPropF]
  have h1 : fixable (propsStep (fixPropF n)
      (if (lookupJ g "anyOf").isSome then fixAnyOf g else g)) =
      fixable (if (lookupJ g "anyOf").isSome then fixAnyOf g else g) :=
    fixable_congr (lookup_propsStep_ne (by decide))
  rw [h1]
  by_cases hfix : fixable g
  · have hsome : (lookupJ g "anyOf").isSome := by
      unfold fixable at hfix
      split at hfix
      case h_1 heq => rw [heq]; rfl
      case h_2 => cases hfix
    rw [if_pos hsome]
    have : lookupJ (fixAnyOf g) "anyOf" = none := fixAnyOf_no_anyOf hfix
    unfold fixable
    rw [this]
  · rw [Bool.not_eq_true] at hfix
    split
    · rw [fixAnyOf_eq_self hfix]; exact hfix
    · exact hfix

/-- Inversion of a single `PropReach` step out of `propsStep f g`: it reaches
exactly the `f`-images of the object-valued `properties` entries of `g`. -/
theorem propsStep_reach_step {f : List (String × JVal) → List (String × JVal)}
    {g PS : List (String × JVal)} {k : String} {h : List (String × JVal)}
    (hps : lookupJ (propsStep f g) "properties" = some (JVal.obj PS))
    (hmem : (k, JVal.obj h) ∈ PS) :
    ∃ ps h₀, lookupJ g "properties" = some (JVal.obj ps) ∧
      (k, JVal.obj h₀) ∈ ps ∧ h = f h₀ := by
  rw [lookup_propsStep_props] at hps
  cases hv : lookupJ g "properties" with
  | none => rw [hv] at hps; cases hps
  | some v =>
    rw [hv] at hps
    cases v
    case obj ps =>
      simp only [Option.map_some'] at hps
      cases hps
      rcases mem_mapPropEntry hmem with ⟨h₀, hh₀, rfl⟩
      exact ⟨ps, h₀, rfl, hh₀, rfl⟩
    all_goals simp at hps

/-- Every node `properties`-reachable from the result of the per-property
action is not a fixable null-union. -/
theorem fixPropF_reach : ∀ n : Nat, ∀ g h : List (String × JVal),
    fsize g < n → PropReach (fixPropF n g) h → fixable h = false := by
  intro n
  induction n with
  | zero => intro g h hn _; omega
  | succ n ih =>
    intro g h hn hreach
    have hsz : ∀ ps k h₀, lookupJ (if (lookupJ g "anyOf").isSome then fixAnyOf g else g)
        "properties" = some (JVal.obj ps) → (k, JVal.obj h₀) ∈ ps → fsize h₀ < n := by
      intro ps k h₀ hps hmem
      have h1 : 1 + jsize (JVal.obj ps) ≤ fsize g := lookup_afterFix_size hps
      have h2 : 1 + jsize (JVal.obj h₀) ≤ fsize ps := fsize_of_mem hmem
      simp only [jsize] at h1 h2
      omega
    cases hreach with
    | here hps hmem =>
      rw [fixPropF] at hps
      rcases propsStep_reach_step hps hmem with ⟨ps, h₀, hg1, hh₀, rfl⟩
      have hn₀ : fsize h₀ < n := hsz _ _ _ hg1 hh₀
      cases n with
      | zero => omega
      | succ n' => exact fixPropF_root
    | there hps hmem hrest =>
      rw [fixPropF] at hps
      rcases propsStep_reach_step hps hmem with ⟨ps, h₀, hg1, hh₀, rfl⟩
      exact ih h₀ h (hsz _ _ _ hg1 hh₀) hrest

/-- The root invariant, stated for the wrapper. -/
theorem fixProp_root {g : List (String × JVal)} : fixable (fixProp g) = false := by
  unfold fixProp
  exact fixPropF_root

/-- The reachable invariant, stated for the wrapper. -/
theorem fixProp_reach {g h : List (String × JVal)}
    (hreach : PropReach (fixProp g) h) : fixable h = false :=
  fixPropF_reach (fsize g + 1) g h (Nat.lt_succ_self _) hreach

/-- Every node `properties`-reachable from `fixNullTypes g` is not a fixable
null-union (note: the root `g` itself is not rewritten by `fixNullTypes`). -/
theorem fixNullTypes_reach {g h : List (String × JVal)}
    (hreach : PropReach (fixNullTypes g) h) : fixable h = false := by
  cases hreach with
  | here hps hmem =>
    rcases propsStep_reach_step hps hmem with ⟨ps, h₀, hg1, hh₀, rfl⟩
    exact fixProp_root
  | there hps hmem hrest =>
    rcases propsStep_reach_step hps hmem with ⟨ps, h₀, hg1, hh₀, rfl⟩
    exact fixProp_reach hrest

/-! ### `removeNonStandardFields`: what it preserves, and idempotence -/

theorem propsStep_eq_self_of_not_obj {f : List (String × JVal) → List (String × JVal)}
    {g : List (String × JVal)}
    (h : ∀ ps, lookupJ g "properties" ≠ some (JVal.obj ps)) :
    propsStep f g = g := by
  unfold propsStep
  split
  case h_1 ps hps => exact absurd hps (h ps)
  case h_2 => rfl

theorem itemsStep_eq_self_of_not_obj {f : List (String × JVal) → List (String × JVal)}
    {itemsv : Option JVal} {g : List (String × JVal)}
    (h : ∀ h', itemsv ≠ some (JVal.obj h')) :
    itemsStep f itemsv g = g := by
  unfold itemsStep
  split
  case h_1 h' => exact absurd rfl (h h')
  case h_2 => rfl

/-- `removeNonStandardFields` never touches the `anyOf` member. -/
theorem lookup_removeNSFF_anyOf {n : Nat} {g : List (String × JVal)} :
    lookupJ (removeNSFF n g) "anyOf" = lookupJ g "anyOf" := by
  cases n with
  | zero => rfl
  | succ n =>
    simp only [removeNSFF]
    rw [lookup_itemsStep_ne (by decide), lookup_propsStep_ne (by decide),
      lookup_delKey2_ne (by decide) (by decide)]

theorem removeNSFF_fixable {n : Nat} {g : List (String × JVal)} :
    fixable (removeNSFF n g) = fixable g :=
  fixable_congr lookup_removeNSFF_anyOf

theorem removeNSF_fixable {g : List (String × JVal)} :
    fixable (removeNSF g) = fixable g :=
  removeNSFF_fixable

/-- The deny-listed keys are gone from the result. -/
theorem lookup_removeNSFF_deny {n : Nat} {g : List (String × JVal)} :
    lookupJ (removeNSFF (n + 1) g) "error_messages" = none ∧
    lookupJ (removeNSFF (n + 1) g) "hide_error_details" = none := by
  simp only [removeNSFF]
  constructor
  · rw [lookup_itemsStep_ne (by decide), lookup_propsStep_ne (by decide),
      lookupJ_delKey_ne _ _ _ (by decide), lookupJ_delKey_self]
  · rw [lookup_itemsStep_ne (by decide), lookup_propsStep_ne (by decide),
      lookupJ_delKey_self]

/-- How `removeNonStandardFields` rewrites the `properties` member. -/
theorem lookup_removeNSFF_props {n : Nat} {g : List (String × JVal)} :
    lookupJ (removeNSFF (n + 1) g) "properties" =
      (lookupJ g "properties").map (fun v =>
        match v with
        | JVal.obj ps => JVal.obj (ps.map (mapPropEntry (removeNSFF n)))
        | v => v) := by
  simp only [removeNSFF]
  rw [lookup_itemsStep_ne (by decide), lookup_propsStep_props,
    lookup_delKey2_ne (by decide) (by decide)]

/-- How `removeNonStandardFields` rewrites the `items` member. -/
theorem lookup_removeNSFF_items {n : Nat} {g : List (String × JVal)} :
    lookupJ (removeNSFF (n + 1) g) "items" =
      (lookupJ g "items").map (fun v =>
        match v with
        | JVal.obj h => JVal.obj (removeNSFF n h)
        | v => v) := by
  simp only [removeNSFF]
  rw [lookup_itemsStep_items]
  have hdel : lookupJ (delKey (delKey g "error_messages") "hide_error_details")
      "items" = lookupJ g "items" := lookup_delKey2_ne (by decide) (by decide)
  rw [hdel]
  cases hv : lookupJ g "items" with
  | none =>
    rw [lookup_propsStep_ne (by decide), hdel, hv]
    rfl
  | some v =>
    cases v <;> simp only [Option.map_some'] <;>
      first
        | rfl
        | (rw [lookup_propsStep_ne (by decide), hdel, hv])

/-- Inversion of a single `PropReach` step out of `removeNSFF (n+1) g`. -/
theorem removeNSFF_reach_step {n : Nat} {g PS : List (String × JVal)} {k : String}
    {h : List (String × JVal)}
    (hps : lookupJ (removeNSFF (n + 1) g) "properties" = some (JVal.obj PS))
    (hmem : (k, JVal.obj h) ∈ PS) :
    ∃ ps h₀, lookupJ g "properties" = some (JVal.obj ps) ∧
      (k, JVal.obj h₀) ∈ ps ∧ h = removeNSFF n h₀ := by
  rw [lookup_removeNSFF_props] at hps
  cases hv : lookupJ g "properties" with
  | none => rw [hv] at hps; cases hps
  | some v =>
    rw [hv] at hps
    cases v
    case obj ps =>
      simp only [Option.map_some'] at hps
      cases hps
      rcases mem_mapPropEntry hmem with ⟨h₀, hh₀, rfl⟩
      exact ⟨ps, h₀, rfl, hh₀, rfl⟩
    all_goals simp at hps

/-- Nodes `properties`-reachable from `removeNonStandardFields g` are the
`removeNonStandardFields`-images of nodes reachable from `g`. -/
theorem removeNSFF_reach : ∀ n : Nat, ∀ g h : List (String × JVal),
    fsize g < n → PropReach (removeNSFF n g) h →
    ∃ h₀, PropReach g h₀ ∧ h = removeNSF h₀ := by
  intro n
  induction n with
  | zero => intro g h hn _; omega
  | succ n ih =>
    intro g h hn hreach
    have hsz : ∀ ps k h₀, lookupJ g "properties" = some (JVal.obj ps) →
        (k, JVal.obj h₀) ∈ ps → fsize h₀ < n := by
      intro ps k h₀ hps hmem
      have h1 := fsize_of_lookup hps
      have h2 : 1 + jsize (JVal.obj h₀) ≤ fsize ps := fsize_of_mem hmem
      simp only [jsize] at h1 h2
      omega
    cases hreach with
    | here hps hmem =>
      rcases removeNSFF_reach_step hps hmem with ⟨ps, h₀, hg, hh₀, rfl⟩
      exact ⟨h₀, PropReach.here hg hh₀, (removeNSFF_eq (hsz _ _ _ hg hh₀)).symm ▸ rfl⟩
    | there hps hmem hrest =>
      rcases removeNSFF_reach_step hps hmem with ⟨ps, h₀, hg, hh₀, rfl⟩
      have hn₀ : fsize h₀ < n := hsz _ _ _ hg hh₀
      rcases ih h₀ h hn₀ hrest with ⟨h₀', hr', rfl⟩
      exact ⟨h₀', PropReach.there hg hh₀ hr', rfl⟩

theorem removeNSF_reach {g h : List (String × JVal)}
    (hreach : PropReach (removeNSF g) h) :
    ∃ h₀, PropReach g h₀ ∧ h = removeNSF h₀ :=
  removeNSFF_reach (fsize g + 1) g h (Nat.lt_succ_self _) hreach

/-- If no reachable node of `g` is a fixable null-union, the same holds after
`removeNonStandardFields` (it never touches `anyOf` members). -/
theorem removeNSF_pres_reach {g : List (String × JVal)}
    (hg : ∀ h₀, PropReach g h₀ → fixable h₀ = false) :
    ∀ h, PropReach (removeNSF g) h → fixable h = false := by
  intro h hreach
  rcases removeNSF_reach hreach with ⟨h₀, hr, rfl⟩
  rw [removeNSF_fixable]
  exact hg h₀ hr

/-- `propsStep` on an object-valued `properties`. -/
theorem propsStep_of_obj {f : List (String × JVal) → List (String × JVal)}
    {g ps : List (String × JVal)}
    (hps : lookupJ g "properties" = some (JVal.obj ps)) :
    propsStep f g = setKey g "properties" (JVal.obj (ps.map (mapPropEntry f))) := by
  unfold propsStep
  rw [hps]

/-- `itemsStep` on an object-valued `items`. -/
theorem itemsStep_obj {f : List (String × JVal) → List (String × JVal)}
    {h g : List (String × JVal)} :
    itemsStep f (some (JVal.obj h)) g = setKey g "items" (JVal.obj (f h)) := rfl

/-- `removeNonStandardFields` is idempotent (fuelled induction).  The second
pass finds no deny-listed keys and every `properties` / `items` subnode
already processed. -/
theorem removeNSFF_idem : ∀ n : Nat, ∀ g : List (String × JVal),
    fsize g < n → removeNSF (removeNSFF n g) = removeNSFF n g := by
  intro n
  induction n with
  | zero => intro g hn; omega
  | succ n ih =>
    intro g hn
    -- abbreviate the first-pass result
    generalize hR : removeNSFF (n + 1) g = R
    have hdeny := @lookup_removeNSFF_deny n g
    rw [hR] at hdeny
    have hpropsR : lookupJ R "properties" =
        (lookupJ g "properties").map (fun v =>
          match v with
          | JVal.obj ps => JVal.obj (ps.map (mapPropEntry (removeNSFF n)))
          | v => v) := by
      rw [← hR]; exact lookup_removeNSFF_props
    have hitemsR : lookupJ R "items" =
        (lookupJ g "items").map (fun v =>
          match v with
          | JVal.obj h => JVal.obj (removeNSFF n h)
          | v => v) := by
      rw [← hR]; exact lookup_removeNSFF_items
    -- the second pass: removeNSF R = removeNSFF (fsize R + 1) R
    show removeNSFF (fsize R + 1) R = R
    simp only [removeNSFF]
    have hR1 : delKey (delKey R "error_messages") "hide_error_details" = R := by
      rw [delKey_of_lookup_none _ _ hdeny.1, delKey_of_lookup_none _ _ hdeny.2]
    rw [hR1]
    -- the properties pass of the second round is the identity
    have hprops2 : propsStep (removeNSFF (fsize R)) R = R := by
      cases hv : lookupJ g "properties" with
      | none =>
        apply propsStep_eq_self_of_not_obj
        intro ps hps
        rw [hpropsR, hv] at hps
        cases hps
      | some v =>
        cases v
        case obj ps =>
          have hPS : lookupJ R "properties" =
              some (JVal.obj (ps.map (mapPropEntry (removeNSFF n)))) := by
            rw [hpropsR, hv]; rfl
          rw [propsStep_of_obj hPS]
          have hmapped : (ps.map (mapPropEntry (removeNSFF n))).map
              (mapPropEntry (removeNSFF (fsize R))) =
              ps.map (mapPropEntry (removeNSFF n)) := by
            rw [List.map_map]
            apply List.map_congr_left
            intro kv hkv
            obtain ⟨k, v⟩ := kv
            cases v <;> simp only [Function.comp, mapPropEntry]
            case obj h₀ =>
              -- sizes: h₀ sits under g's properties; its image sits under R's
              have h1 := fsize_of_lookup hv
              have h2 : 1 + jsize (JVal.obj h₀) ≤ fsize ps := fsize_of_mem hkv
              simp only [jsize] at h1 h2
              have hn₀ : fsize h₀ < n := by omega
              have hmemR : (k, JVal.obj (removeNSFF n h₀)) ∈
                  ps.map (mapPropEntry (removeNSFF n)) := by
                refine List.mem_map.mpr ⟨(k, JVal.obj h₀), hkv, ?_⟩
                simp [mapPropEntry]
              have h3 := fsize_of_lookup hPS
              have h4 : 1 + jsize (JVal.obj (removeNSFF n h₀)) ≤
                  fsize (ps.map (mapPropEntry (removeNSFF n))) := fsize_of_mem hmemR
              simp only [jsize] at h3 h4
              rw [@removeNSFF_eq (fsize R) _ (by omega), ih h₀ hn₀]
          rw [hmapped]
          exact setKey_self _ _ _ hPS
        all_goals
          (apply propsStep_eq_self_of_not_obj
           intro ps hps
           rw [hpropsR, hv] at hps
           simp at hps)
    rw [hprops2]
    -- the items pass of the second round is the identity
    cases hv : lookupJ g "items" with
    | none =>
      apply itemsStep_eq_self_of_not_obj
      intro h' hh'
      rw [hitemsR, hv] at hh'
      cases hh'
    | some v =>
      cases v
      case obj hI =>
        have hIR : lookupJ R "items" = some (JVal.obj (removeNSFF n hI)) := by
          rw [hitemsR, hv]; rfl
        rw [hIR, itemsStep_obj]
        have h1 := fsize_of_lookup hv
        simp only [jsize] at h1
        have hnI : fsize hI < n := by omega
        have h3 := fsize_of_lookup hIR
        simp only [jsize] at h3
        rw [@removeNSFF_eq (fsize R) _ (by omega), ih hI hnI]
        exact setKey_self _ _ _ hIR
      all_goals
        (apply itemsStep_eq_self_of_not_obj
         intro h' hh'
         rw [hitemsR, hv] at hh'
         simp at hh')

/-- `removeNonStandardFields` is idempotent. -/
theorem removeNSF_idem (g : List (String × JVal)) :
    removeNSF (removeNSF g) = removeNSF g :=
  removeNSFF_idem (fsize g + 1) g (Nat.lt_succ_self _)

/-! ### Identity of the repair steps on already-conformant schemas -/

/-- On a schema with no fixable null-union at the root or at any
`properties`-reachable node, the per-property action is the identity. -/
theorem fixPropF_id : ∀ n : Nat, ∀ g : List (String × JVal),
    fsize g < n → fixable g = false →
    (∀ h, PropReach g h → fixable h = false) → fixPropF n g = g := by
  intro n
  induction n with
  | zero => intro g hn _ _; omega
  | succ n ih =>
    intro g hn hfix hreach
    simp only [fixPropF]
    have hg1 : (if (lookupJ g "anyOf").isSome then fixAnyOf g else g) = g := by
      split
      · exact fixAnyOf_eq_self hfix
      · rfl
    rw [hg1]
    cases hv : lookupJ g "properties" with
    | none =>
      apply propsStep_eq_self_of_not_obj
      intro ps hps
      rw [hv] at hps
      cases hps
    | some v =>
      cases v
      case obj ps =>
        rw [propsStep_of_obj hv]
        have hmap : ps.map (mapPropEntry (fixPropF n)) = ps := by
          conv_rhs => rw [← List.map_id ps]
          apply List.map_congr_left
          intro kv hkv
          obtain ⟨k, v⟩ := kv
          cases v <;> simp only [mapPropEntry, id]
          case obj h₀ =>
            have h1 := fsize_of_lookup hv
            have h2 : 1 + jsize (JVal.obj h₀) ≤ fsize ps := fsize_of_mem hkv
            simp only [jsize] at h1 h2
            rw [ih h₀ (by omega) (hreach h₀ (PropReach.here hv hkv))
              (fun h' hr' => hreach h' (PropReach.there hv hkv hr'))]
        rw [hmap]
        exact setKey_self _ _ _ hv
      all_goals
        (apply propsStep_eq_self_of_not_obj
         intro ps hps
         rw [hv] at hps
         cases hps)

/-- `fixProp` is the identity on schemas satisfying the invariant. -/
theorem fixProp_id {g : List (String × JVal)} (hfix : fixable g = false)
    (hreach : ∀ h, PropReach g h → fixable h = false) : fixProp g = g :=
  fixPropF_id (fsize g + 1) g (Nat.lt_succ_self _) hfix hreach

/-- `fixNullTypes` is the identity on schemas with no fixable null-union at
any `properties`-reachable node (the root is never rewritten anyway). -/
theorem fixNullTypes_id {g : List (String × JVal)}
    (hreach : ∀ h, PropReach g h → fixable h = false) : fixNullTypes g = g := by
  unfold fixNullTypes
  cases hv : lookupJ g "properties" with
  | none =>
    apply propsStep_eq_self_of_not_obj
    intro ps hps
    rw [hv] at hps
    cases hps
  | some v =>
    cases v
    case obj ps =>
      rw [propsStep_of_obj hv]
      have hmap : ps.map (mapPropEntry fixProp) = ps := by
        conv_rhs => rw [← List.map_id ps]
        apply List.map_congr_left
        intro kv hkv
        obtain ⟨k, v⟩ := kv
        cases v <;> simp only [mapPropEntry, id]
        case obj h₀ =>
          rw [fixProp_id (hreach h₀ (PropReach.here hv hkv))
            (fun h' hr' => hreach h' (PropReach.there hv hkv hr'))]
      rw [hmap]
      exact setKey_self _ _ _ hv
    all_goals
      (apply propsStep_eq_self_of_not_obj
       intro ps hps
       rw [hv] at hps
       cases hps)

/-! ### Consequences of the `noNullUnions` hypothesis -/

theorem noNullUnionsF_mem {fs : List (String × JVal)} {k : String} {v : JVal}
    (hm : (k, v) ∈ fs) (h : noNullUnionsF fs = true) : noNullUnionsV v = true := by
  induction fs with
  | nil => simp at hm
  | cons p fs ih =>
    obtain ⟨k₀, v₀⟩ := p
    simp only [noNullUnionsF, Bool.and_eq_true] at h
    rcases List.mem_cons.mp hm with hm | hm
    · cases hm; exact h.1
    · exact ih hm h.2

theorem noNullUnionsF_lookup {fs : List (String × JVal)} {k : String} {v : JVal}
    (hl : lookupJ fs k = some v) (h : noNullUnionsF fs = true) :
    noNullUnionsV v = true :=
  noNullUnionsF_mem (lookupJ_mem hl) h

theorem noNullUnionsL_mem {xs : List JVal} {v : JVal}
    (hm : v ∈ xs) (h : noNullUnionsL xs = true) : noNullUnionsV v = true := by
  induction xs with
  | nil => simp at hm
  | cons x xs ih =>
    simp only [noNullUnionsL, Bool.and_eq_true] at h
    rcases List.mem_cons.mp hm with hm | hm
    · cases hm; exact h.1
    · exact ih hm h.2

theorem noNullUnionsV_obj {fs : List (String × JVal)}
    (h : noNullUnionsV (JVal.obj fs) = true) :
    fixable fs = false ∧ noNullUnionsF fs = true := by
  simp only [noNullUnionsV, Bool.and_eq_true, Bool.not_eq_true'] at h
  exact h

/-- A document with no null-unions anywhere has none at the
`properties`-reachable nodes in particular. -/
theorem noNullUnions_reach {g h : List (String × JVal)}
    (hreach : PropReach g h) (hg : noNullUnionsF g = true) :
    fixable h = false := by
  induction hreach with
  | here hps hmem =>
    have h1 := noNullUnionsV_obj (noNullUnionsF_lookup hps hg)
    exact (noNullUnionsV_obj (noNullUnionsF_mem hmem h1.2)).1
  | there hps hmem _ ih =>
    have h1 := noNullUnionsV_obj (noNullUnionsF_lookup hps hg)
    exact ih (noNullUnionsV_obj (noNullUnionsF_mem hmem h1.2)).2

/-- Parameter-schema fixups are the identity on a no-null-union value. -/
theorem procParamV_id {v : JVal} (h : noNullUnionsV v = true) :
    procParamV v = v := by
  cases v <;> try rfl
  case obj p =>
    simp only [procParamV]
    cases hv : lookupJ p "schema" with
    | none => rfl
    | some w =>
      cases w <;> try rfl
      case obj s =>
        have hs := noNullUnionsV_obj (noNullUnionsF_lookup hv (noNullUnionsV_obj h).2)
        show JVal.obj (setKey p "schema" (JVal.obj (fixAnyOf s))) = JVal.obj p
        rw [fixAnyOf_eq_self hs.1, setKey_self _ _ _ hv]

theorem procMethodV_id {v : JVal} (h : noNullUnionsV v = true) :
    procMethodV v = v := by
  cases v <;> try rfl
  case obj m =>
    simp only [procMethodV]
    cases hv : lookupJ m "parameters" with
    | none => rfl
    | some w =>
      cases w <;> try rfl
      case arr ps =>
        have hps : noNullUnionsL ps = true := by
          have := noNullUnionsF_lookup hv (noNullUnionsV_obj h).2
          simpa [noNullUnionsV] using this
        have hmap : ps.map procParamV = ps := by
          conv_rhs => rw [← List.map_id ps]
          apply List.map_congr_left
          intro x hx
          simp only [id]
          exact procParamV_id (noNullUnionsL_mem hx hps)
        show JVal.obj (setKey m "parameters" (JVal.arr (ps.map procParamV))) = JVal.obj m
        rw [hmap, setKey_self _ _ _ hv]

theorem procPathItemV_id {v : JVal} (h : noNullUnionsV v = true) :
    procPathItemV v = v := by
  cases v <;> try rfl
  case obj pi =>
    simp only [procPathItemV]
    have hmap : pi.map (fun kv => (kv.1, procMethodV kv.2)) = pi := by
      conv_rhs => rw [← List.map_id pi]
      apply List.map_congr_left
      intro kv hkv
      obtain ⟨k, w⟩ := kv
      simp only [id]
      rw [procMethodV_id (noNullUnionsF_mem hkv (noNullUnionsV_obj h).2)]
    rw [hmap]

/-- The parameters pass is the identity when the `paths` subtree has no
null-unions. -/
theorem stepParams_id {spec : List (String × JVal)}
    (h : ∀ v, lookupJ spec "paths" = some v → noNullUnionsV v = true) :
    stepParams spec = spec := by
  unfold stepParams
  split
  case h_1 paths hp =>
    have hmap : paths.map (fun kv => (kv.1, procPathItemV kv.2)) = paths := by
      conv_rhs => rw [← List.map_id paths]
      apply List.map_congr_left
      intro kv hkv
      obtain ⟨k, w⟩ := kv
      simp only [id]
      rw [procPathItemV_id (noNullUnionsF_mem hkv (noNullUnionsV_obj (h _ hp)).2)]
    rw [hmap]
    exact setKey_self _ _ _ hp
  case h_2 => rfl

/-! ### Idempotence of the whole normalization on conformant documents -/

theorem stepVersion_id {spec : List (String × JVal)}
    (hver : lookupJ spec "openapi" = some (JVal.str "3.0.0")) :
    stepVersion spec = spec := by
  unfold stepVersion
  rw [hver]
  have : hasPfx "3.0.0" "3.1" = false := by decide
  simp only [this, Bool.false_eq_true, if_false]

theorem stepSchemas_of_obj {spec cs ss : List (String × JVal)}
    (hc : lookupJ spec "components" = some (JVal.obj cs))
    (hs : lookupJ cs "schemas" = some (JVal.obj ss)) :
    stepSchemas spec = setKey spec "components" (JVal.obj (setKey cs "schemas"
      (JVal.obj (ss.map (fun kv => (kv.1, procSchemaV kv.2)))))) := by
  simp only [stepSchemas, hc, hs]

/-- One per-schema pass leaves nothing for a second pass to do. -/
theorem procSchemaV_idem {v : JVal} (h : noNullUnionsV v = true) :
    procSchemaV (procSchemaV v) = procSchemaV v := by
  cases v <;> try rfl
  case obj g =>
    have hreach : ∀ h', PropReach g h' → fixable h' = false :=
      fun h' hr => noNullUnions_reach hr (noNullUnionsV_obj h).2
    simp only [procSchemaV]
    rw [fixNullTypes_id hreach,
      fixNullTypes_id (removeNSF_pres_reach hreach), removeNSF_idem]

theorem lookup_stepSchemas_ne {spec : List (String × JVal)} {k : String}
    (hk : k ≠ "components") :
    lookupJ (stepSchemas spec) k = lookupJ spec k := by
  unfold stepSchemas
  split
  case h_1 cs hc =>
    split
    case h_1 ss hs => exact lookupJ_setKey_ne _ _ _ _ (fun h => hk h.symm)
    case h_2 => rfl
  case h_2 => rfl

theorem stepSchemas_idem {spec : List (String × JVal)}
    (hnn : noNullUnionsF spec = true) :
    stepSchemas (stepSchemas spec) = stepSchemas spec := by
  cases hc : lookupJ spec "components" with
  | none =>
    have h1 : stepSchemas spec = spec := by
      simp only [stepSchemas, hc]
    rw [h1, h1]
  | some c =>
    cases c
    case obj cs =>
      cases hs : lookupJ cs "schemas" with
      | none =>
        have h1 : stepSchemas spec = spec := by
          simp only [stepSchemas, hc, hs]
        rw [h1, h1]
      | some s =>
        cases s
        case obj ss =>
          have hnnss : noNullUnionsF ss = true := by
            have h1 := noNullUnionsV_obj (noNullUnionsF_lookup hc hnn)
            exact (noNullUnionsV_obj (noNullUnionsF_lookup hs h1.2)).2
          rw [stepSchemas_of_obj hc hs]
          set ss₁ := ss.map (fun kv => (kv.1, procSchemaV kv.2)) with hss₁
          set cs₁ := setKey cs "schemas" (JVal.obj ss₁) with hcs₁
          have hc' : lookupJ (setKey spec "components" (JVal.obj cs₁)) "components" =
              some (JVal.obj cs₁) := lookupJ_setKey_self _ _ _
          have hs' : lookupJ cs₁ "schemas" = some (JVal.obj ss₁) := by
            rw [hcs₁]; exact lookupJ_setKey_self _ _ _
          rw [stepSchemas_of_obj hc' hs']
          have hmap : ss₁.map (fun kv => (kv.1, procSchemaV kv.2)) = ss₁ := by
            rw [hss₁, List.map_map]
            apply List.map_congr_left
            intro kv hkv
            obtain ⟨k, v⟩ := kv
            simp only [Function.comp]
            rw [procSchemaV_idem (noNullUnionsF_mem hkv hnnss)]
          rw [hmap, setKey_self _ _ _ hs', setKey_self _ _ _ hc']
        all_goals
          (have h1 : stepSchemas spec = spec := by
             simp only [stepSchemas, hc, hs]
           rw [h1, h1])
    all_goals
      (have h1 : stepSchemas spec = spec := by
         simp only [stepSchemas, hc]
       rw [h1, h1])

/-- The claimed idempotence of normalization on documents that are already
`3.0.0` and contain no null-unions, at the level of the decoded tree. -/
theorem preprocessSpecTree_idem {spec : List (String × JVal)}
    (hnn : noNullUnionsF spec = true)
    (hver : lookupJ spec "openapi" = some (JVal.str "3.0.0")) :
    preprocessSpecTree (preprocessSpecTree spec) = preprocessSpecTree spec := by
  have hpaths : ∀ st : List (String × JVal),
      lookupJ st "paths" = lookupJ spec "paths" →
      (∀ v, lookupJ st "paths" = some v → noNullUnionsV v = true) := by
    intro st hst v hv
    rw [hst] at hv
    exact noNullUnionsF_lookup hv hnn
  unfold preprocessSpecTree
  rw [stepVersion_id hver]
  have hS₁ : stepParams (stepSchemas spec) = stepSchemas spec :=
    stepParams_id (hpaths _ (lookup_stepSchemas_ne (by decide)))
  rw [hS₁]
  have hver' : lookupJ (stepSchemas spec) "openapi" = some (JVal.str "3.0.0") := by
    rw [lookup_stepSchemas_ne (by decide)]; exact hver
  rw [stepVersion_id hver', stepSchemas_idem hnn]
  exact hS₁

/-- The amended C2 invariant target: the per-schema normalization
(`fixNullTypes` then `removeNonStandardFields`). -/
theorem procSchema_reach {g h : List (String × JVal)}
    (hreach : PropReach (removeNSF (fixNullTypes g)) h) : fixable h = false :=
  removeNSF_pres_reach (fun _ hr => fixNullTypes_reach hr) h hreach

/-! ## JSON re-encoding and Go `%v` formatting

`json.Marshal` writes object keys in sorted order; `fmt`'s `%v` prints map
keys sorted as well.  Sorting is by Go's byte-wise string order, which equals
Lean's `String` order (UTF-8 preserves code-point order). -/

/-- Key order used by Go when rendering maps (`sort.Strings`). -/
def keyLeB {α : Type} (a b : String × α) : Bool := strLeB a.1 b.1

/-- Stable sort of map entries by key. -/
def sortByKey {α : Type} (l : List (String × α)) : List (String × α) :=
  List.insertionSort (fun a b => keyLeB a b = true) l

instance {α : Type} : IsTotal (String × α) (fun a b => keyLeB a b = true) where
  total := by
    intro a b
    simp only [keyLeB, strLeB_iff]
    exact le_total a.1 b.1

instance {α : Type} : IsTrans (String × α) (fun a b => keyLeB a b = true) where
  trans := by
    intro a b c
    simp only [keyLeB, strLeB_iff]
    exact le_trans

/-- Lower-case hex digit. -/
def hexDig (n : Nat) : Char :=
  if n < 10 then Char.ofNat ('0'.toNat + n) else Char.ofNat ('a'.toNat + (n - 10))

/-- `encoding/json` string escaping (HTML-escaping on, as in `json.Marshal`). -/
def escJSONChar (c : Char) : List Char :=
  if c = '"' then ['\\', '"']
  else if c = '\\' then ['\\', '\\']
  else if c = '\n' then ['\\', 'n']
  else if c = '\r' then ['\\', 'r']
  else if c = '\t' then ['\\', 't']
  else if c.toNat < 0x20 ∨ c = '<' ∨ c = '>' ∨ c = '&' then
    ['\\', 'u', '0', '0', hexDig (c.toNat / 16), hexDig (c.toNat % 16)]
  else if c.toNat = 0x2028 then ['\\', 'u', '2', '0', '2', '8']
  else if c.toNat = 0x2029 then ['\\', 'u', '2', '0', '2', '9']
  else [c]

def escJSON (s : String) : String := String.mk ((s.data.map escJSONChar).flatten)

def quoteStr (s : String) : String := "\"" ++ escJSON s ++ "\""

mutual
/-- `json.Marshal` of a decoded tree: object keys sorted, no extra spaces. -/
def jsonEncode : JVal → String
  | .null => "null"
  | .bool b => if b then "true" else "false"
  | .num n => toString n
  | .str s => quoteStr s
  | .arr xs => "[" ++ joinSep "," (jsonEncArr xs) ++ "]"
  | .obj fs => "\x7b" ++ joinSep ","
      ((sortByKey (jsonEncFields fs)).map (fun kv => quoteStr kv.1 ++ ":" ++ kv.2))
      ++ "\x7d"
def jsonEncArr : List JVal → List String
  | [] => []
  | v :: vs => jsonEncode v :: jsonEncArr vs
def jsonEncFields : List (String × JVal) → List (String × String)
  | [] => []
  | (k, v) :: fs => (k, jsonEncode v) :: jsonEncFields fs
end

mutual
/-- Go `fmt` `%v` of a decoded JSON value (map keys sorted since Go 1.12). -/
def goFmtV : JVal → String
  | .null => "<nil>"
  | .bool b => if b then "true" else "false"
  | .num n => toString n
  | .str s => s
  | .arr xs => "[" ++ joinSep " " (goFmtArr xs) ++ "]"
  | .obj fs => "map[" ++ joinSep " "
      ((sortByKey (goFmtFields fs)).map (fun kv => kv.1 ++ ":" ++ kv.2)) ++ "]"
def goFmtArr : List JVal → List String
  | [] => []
  | v :: vs => goFmtV v :: goFmtArr vs
def goFmtFields : List (String × JVal) → List (String × String)
  | [] => []
  | (k, v) :: fs => (k, goFmtV v) :: goFmtFields fs
end

/-- Go `preprocessOpenAPISpec`.  The `Option JVal` input models
`json.Unmarshal(data, &spec)` with `spec : map[string]interface{}`:
`none` stands for input bytes that are not valid JSON; `some v` for bytes
decoding to the JSON value `v`.  The Go unmarshal into a map errors unless
the decoded value is a JSON object — except for JSON `null`, which leaves the
map `nil` and later re-marshals as `null`.  Every step after the decode is
total; the result is the re-encoded bytes. -/
def preprocessOpenAPISpec : Option JVal → Except String String
  | none => .error "error unmarshaling OpenAPI spec"
  | some (.obj fs) => .ok (jsonEncode (.obj (preprocessSpecTree fs)))
  | some .null => .ok "null"
  | some _ => .error "error unmarshaling OpenAPI spec"

/-! ## Tool Model Builder (internal/mcp/generator/tools.go, unnamed/part_003)

Tool identifier derivation and the per-operation tool construction of
`processPathsIntoTools`. -/

/-- `strings.Title`'s separator test (exact for ASCII; all paths in this
repository are ASCII.  Go's comment: "ASCII alphanumerics and underscore are
not separators"). -/
def goIsSeparator (c : Char) : Bool :=
  if c.toNat ≤ 0x7F then !(c.isDigit || c.isLower || c.isUpper || c = '_')
  else false

def goTitleChars : Char → List Char → List Char
  | _, [] => []
  | prev, c :: cs => (if goIsSeparator prev then c.toUpper else c) :: goTitleChars c cs

/-- Go `strings.Title`: title-case the first letter of each word, where a word
begins after a separator (initial `prev` is a space). -/
def goTitle (s : String) : String := String.mk (goTitleChars ' ' s.data)

/-- Go `sanitizePathForToolID` (unnamed/part_003): strip `{`/`}`, map `/` and
`-` to `_`, trim one leading `_`, prepend the lower-cased method and
`strings.Title` the remainder. -/
def sanitizePathForToolID (path method : String) : String :=
  let s1 := replaceAll (replaceAll (replaceAll (replaceAll path "\x7b" "") "\x7d" "")
    "/" "_") "-" "_"
  let s2 := if hasPfx s1 "_" then String.mk (s1.data.drop 1) else s1
  lowerStr method ++ goTitle s2

/-- An OpenAPI parameter schema as the tool builder reads it
(`kin-openapi`'s `Schema.Type` is `""` when absent). -/
structure PSchema where
  type : String
  enum : List JVal
deriving DecidableEq

/-- A declared operation parameter (`Parameter.Value`); `schema = none` models
a nil `Schema` or nil `Schema.Value`. -/
structure ParamSpec where
  name : String
  loc : String
  required : Bool
  descr : String
  schema : Option PSchema
deriving DecidableEq

/-- An operation request body; `content` maps each media type to whether its
schema is non-nil. -/
structure RequestBody where
  required : Bool
  descr : String
  content : List (String × Bool)
deriving DecidableEq

/-- The slice of `openapi3.Operation` the generator reads.  A `none` in
`parameters` models a nil `ParameterRef` or nil `Value`. -/
structure Operation where
  summary : String
  descr : String
  parameters : List (Option ParamSpec)
  requestBody : Option RequestBody
deriving DecidableEq

inductive PropKind where
  | pstring
  | pnumber
  | pboolean
deriving DecidableEq

/-- One property of the generated MCP tool (one `mcp.With*` option). -/
structure ToolProp where
  name : String
  kind : PropKind
  required : Bool
  descr : Option String
  enumVals : List String
deriving DecidableEq

/-- The observable content of one generated MCP tool. -/
structure ToolDef where
  id : String
  descr : String
  props : List ToolProp
deriving DecidableEq

/-- The string members of a schema enum, in source order (non-strings are
silently dropped). -/
def enumStrings (l : List JVal) : List String :=
  l.filterMap (fun v => match v with | .str s => some s | _ => none)

/-- The tool property generated for one declared parameter (`none` when the
parameter's schema is nil and the loop `continue`s). -/
def paramProp (p : ParamSpec) : Option ToolProp :=
  match p.schema with
  | none => none
  | some sch =>
    let d : Option String := if p.descr = "" then none else some p.descr
    match sch.type with
    | "string" =>
      some ⟨p.name, .pstring, p.required, d,
        if sch.enum.length > 0 then enumStrings sch.enum else []⟩
    | "integer" => some ⟨p.name, .pnumber, p.required, d, []⟩
    | "number" => some ⟨p.name, .pnumber, p.required, d, []⟩
    | "boolean" => some ⟨p.name, .pboolean, p.required, d, []⟩
    | _ => some ⟨p.name, .pstring, p.required, d, []⟩

/-- `hasBody` as the spec defines it: a request body with at least one
content-type entry carrying a non-nil schema. -/
def hasBodyOp (op : Operation) : Bool :=
  match op.requestBody with
  | some rb => rb.content.any (fun e => e.2)
  | none => false

/-- The `body` string property added when the operation has a qualifying
request body (Go scans the content map and `break`s at the first qualifying
entry; the added option does not depend on which entry qualifies). -/
def bodyProps (rb? : Option RequestBody) : List ToolProp :=
  match rb? with
  | none => []
  | some rb =>
    if rb.content.any (fun e => e.2) then
      [⟨"body", .pstring, rb.required,
        some (if rb.descr = "" then "Request body" else rb.descr), []⟩]
    else []

/-- The tool generated for one `(path, method, operation)` triple
(lines 34–116 of tools.go). -/
def mkToolDef (path method : String) (op : Operation) : ToolDef :=
  { id := sanitizePathForToolID path method
    descr := if op.summary = "" then op.descr else op.summary
    props := op.parameters.filterMap (fun p? => p?.bind paramProp)
      ++ bodyProps op.requestBody }

/-- The inner loop of `processPathsIntoTools` over one path item's
operations, in the order `pathItem.Operations()` yields them (`nil`
operations are skipped). -/
def processOps (path : String) : List (String × Option Operation) → List ToolDef
  | [] => []
  | (_, none) :: rest => processOps path rest
  | (m, some op) :: rest => mkToolDef path m op :: processOps path rest

/-- `processPathsIntoTools`: the tools added to the MCP server, in iteration
order of `doc.Paths.Map()` and `pathItem.Operations()`.  Both are Go maps, so
the iteration order is an input here: Go randomizes it per invocation. -/
def processPathsIntoTools : List (String × List (String × Option Operation)) → List ToolDef
  | [] => []
  | (p, ops) :: rest => processOps p ops ++ processPathsIntoTools rest

/-! ## Request Planner (tools.go `buildURL`, `createHTTPRequest`, handler) -/

/-- Path-parameter substitution: for each declared `path` parameter present in
`args`, replace every `{name}` in the route template with the `%v` rendering
of the argument. -/
def substPathParams (path : String) (args : List (String × JVal))
    (params : List (Option ParamSpec)) : String :=
  params.foldl (fun pth p? =>
    match p? with
    | some p =>
      if p.loc = "path" then
        match lookupJ args p.name with
        | some v => replaceAll pth ("\x7b" ++ p.name ++ "\x7d") (goFmtV v)
        | none => pth
      else pth
    | none => pth) path

/-- The Go slash normalization between base URL and path. -/
def joinBase (baseURL path : String) : String × String :=
  if !(hasSfx baseURL "/") && !(hasPfx path "/") then (baseURL ++ "/", path)
  else if hasSfx baseURL "/" && hasPfx path "/" then
    (baseURL, String.mk (path.data.drop 1))
  else (baseURL, path)

/-- UTF-8 bytes of a character (for percent-encoding). -/
def utf8Bytes (c : Char) : List Nat :=
  let n := c.toNat
  if n < 0x80 then [n]
  else if n < 0x800 then [0xC0 + n / 0x40, 0x80 + n % 0x40]
  else if n < 0x10000 then
    [0xE0 + n / 0x1000, 0x80 + (n / 0x40) % 0x40, 0x80 + n % 0x40]
  else
    [0xF0 + n / 0x40000, 0x80 + (n / 0x1000) % 0x40, 0x80 + (n / 0x40) % 0x40,
      0x80 + n % 0x40]

/-- Upper-case hex digit (Go percent-encoding uses upper case). -/
def hexDigUp (n : Nat) : Char :=
  if n < 10 then Char.ofNat ('0'.toNat + n) else Char.ofNat ('A'.toNat + (n - 10))

/-- Bytes `url.QueryEscape` leaves unescaped: ASCII alphanumerics and
`-`, `_`, `.`, `~` (Python's `quote_plus` uses the same set). -/
def isUnreservedByte (b : Nat) : Bool :=
  (0x30 ≤ b && b ≤ 0x39) || (0x41 ≤ b && b ≤ 0x5A) || (0x61 ≤ b && b ≤ 0x7A) ||
  b = 0x2D || b = 0x5F || b = 0x2E || b = 0x7E

def escByte (b : Nat) : List Char :=
  if isUnreservedByte b then [Char.ofNat b]
  else if b = 0x20 then ['+']
  else ['%', hexDigUp (b / 16), hexDigUp (b % 16)]

/-- Go `url.QueryEscape` / Python `urllib.parse.quote_plus`. -/
def queryEscape (s : String) : String :=
  String.mk (((s.data.map utf8Bytes).flatten.map escByte).flatten)

/-- The query parameters `buildURL` adds: declared `query` parameters present
in `args`, in declaration order, `%v`-rendered. -/
def collectQuery (params : List (Option ParamSpec)) (args : List (String × JVal)) :
    List (String × String) :=
  params.filterMap (fun p? =>
    match p? with
    | some p =>
      if p.loc = "query" then
        (lookupJ args p.name).map (fun v => (p.name, goFmtV v))
      else none
    | none => none)

/-- `url.Values.Encode`: entries sorted by key (stably: one `Add` per
declared parameter), percent-encoded, joined with `&`. -/
def encodeQuery (l : List (String × String)) : String :=
  joinSep "&" ((sortByKey l).map (fun kv => queryEscape kv.1 ++ "=" ++ queryEscape kv.2))

/-- Go `buildURL` (tools.go 201–248).  Models the `url.Parse`/`u.String()`
round trip for the inputs this code meets: a base URL and path that parse
cleanly, carry no pre-existing query or fragment, and need no extra path
escaping (on such inputs the round trip only attaches the encoded query). -/
def buildURL (baseURL path : String) (args : List (String × JVal))
    (params : List (Option ParamSpec)) : String :=
  let path1 := substPathParams path args params
  let bp := joinBase baseURL path1
  let full := bp.1 ++ bp.2
  let q := encodeQuery (collectQuery params args)
  if q = "" then full else full ++ "?" ++ q

/-! ## The emitted Python `build_url` (unnamed/part_002, `WriteBuildURL`) -/

mutual
/-- Python `str()` of a JSON-ish value. -/
def pyStr : JVal → String
  | .str s => s
  | v => pyRepr v
def pyRepr : JVal → String
  | .null => "None"
  | .bool b => if b then "True" else "False"
  | .num n => toString n
  | .str s => "'" ++ s ++ "'"
  | .arr xs => "[" ++ joinSep ", " (pyReprL xs) ++ "]"
  | .obj fs => "\x7b" ++ joinSep ", " (pyReprF fs) ++ "\x7d"
def pyReprL : List JVal → List String
  | [] => []
  | v :: vs => pyRepr v :: pyReprL vs
def pyReprF : List (String × JVal) → List String
  | [] => []
  | (k, v) :: fs => ("'" ++ k ++ "': " ++ pyRepr v) :: pyReprF fs
end

/-- Python `urllib.parse.urlencode` over a dict in insertion order
(`quote_plus` escaping, values via `str()`). -/
def pyUrlencode (l : List (String × JVal)) : String :=
  joinSep "&" (l.map (fun kv => queryEscape kv.1 ++ "=" ++ queryEscape (pyStr kv.2)))

/-- The semantics of the Python `build_url` function that `WriteBuildURL`
emits into every generated server.  `params` is the `params` dict built by the
generated tool function: the declared parameters whose arguments are not
`None`, in declaration order.  Note the emitted code decides query membership
by testing `"\x7b" + k + "\x7d" in path` against the ALREADY SUBSTITUTED path. -/
def build_url_py (base_url path : String) (params : List (String × JVal)) : String :=
  let path1 := params.foldl (fun pth kv =>
    if containsStr pth ("\x7b" ++ kv.1 ++ "\x7d") then
      replaceAll pth ("\x7b" ++ kv.1 ++ "\x7d") (pyStr kv.2)
    else pth) path
  let bp :=
    if hasSfx base_url "/" && hasPfx path1 "/" then
      (base_url, String.mk (path1.data.drop 1))
    else if !(hasSfx base_url "/") && !(hasPfx path1 "/") then
      (base_url ++ "/", path1)
    else (base_url, path1)
  let url := bp.1 ++ bp.2
  let qps := params.filter (fun kv => !(containsStr bp.2 ("\x7b" ++ kv.1 ++ "\x7d")))
  if qps.isEmpty then url else url ++ "?" ++ pyUrlencode qps

/-! ## `createHTTPRequest` and the live tool handler -/

/-- A planned HTTP request: what `createHTTPRequest` hands to the transport. -/
structure PlannedRequest where
  method : String
  url : String
  body : Option String
deriving DecidableEq

/-- Is `n` the name of a declared `path` or `query` parameter? -/
def isPathOrQueryName (op : Operation) (n : String) : Bool :=
  op.parameters.any (fun p? =>
    match p? with
    | some p => ((p.loc = "path") || (p.loc = "query")) && p.name = n
    | none => false)

/-- The arguments not claimed by a path or query parameter. -/
def nonPathQueryArgs (op : Operation) (args : List (String × JVal)) :
    List (String × JVal) :=
  args.filter (fun kv => !(isPathOrQueryName op kv.1))

/-- Go `createHTTPRequest` (tools.go 250–302).  A body is attached only for
POST/PUT/PATCH: an explicit string `body` argument verbatim; any other `body`
argument JSON-encoded; otherwise the non-path/query arguments JSON-encoded as
an object — or no body when none remain.  (`json.Marshal` cannot fail on a
JSON-decoded value, so the Go error path is unreachable here.) -/
def createHTTPRequest (method url : String) (args : List (String × JVal))
    (op : Operation) : PlannedRequest :=
  let body : Option String :=
    if method = "POST" || method = "PUT" || method = "PATCH" then
      match lookupJ args "body" with
      | some (.str s) => some s
      | some v => some (jsonEncode v)
      | none =>
        let bodyMap := nonPathQueryArgs op args
        if bodyMap.isEmpty then none else some (jsonEncode (.obj bodyMap))
    else none
  ⟨method, url, body⟩

/-- What the live tool handler does before transport. -/
inductive HandlerOutcome where
  | mock (text : String)
  | call (req : PlannedRequest) (auth : Option String)
deriving DecidableEq

/-- The decision logic of the handler returned by `createToolHandler`
(tools.go 132–199): with an empty `service.url` it performs no HTTP request
and returns the mock text with a nil error; otherwise it builds the URL and
request (the Authorization header is attached when configured). -/
def createToolHandlerPlan (serviceURL authHeader path method : String)
    (op : Operation) (args : List (String × JVal)) : HandlerOutcome :=
  if serviceURL = "" then
    .mock ("Mock response for " ++ method ++ " " ++ path ++ "\nParams: "
      ++ goFmtV (.obj args))
  else
    .call (createHTTPRequest method (buildURL serviceURL path args op.parameters)
        args op)
      (if authHeader = "" then none else some authHeader)

/-! # The claims -/

/-! ## C1: live invocation path vs emitted Python path -/

/-- The path parameter of `GET /users/{id}`, as the handler and the emitter
both see it. -/
def c1IdParam : ParamSpec := ⟨"id", "path", true, "", some ⟨"integer", []⟩⟩

/-- C1: the live invocation path and the code-emission path do NOT compute the
same request.  For `GET /users/{id}` with `args = {id: 42}` and base URL
`https://api.example.com`, the Go handler's `buildURL` yields
`https://api.example.com/users/42`, but the emitted Python `build_url` filters
query parameters against the ALREADY SUBSTITUTED path, so the path argument
leaks into the query string: `https://api.example.com/users/42?id=42`.  The
two URLs differ, refuting the bit-for-bit agreement the spec requires. -/
theorem c1_live_vs_emitted_divergence :
    buildURL "https://api.example.com" "/users/\x7bid\x7d" [("id", JVal.num 42)]
      [some c1IdParam] = "https://api.example.com/users/42" ∧
    build_url_py "https://api.example.com" "/users/\x7bid\x7d" [("id", JVal.num 42)]
      = "https://api.example.com/users/42?id=42" ∧
    buildURL "https://api.example.com" "/users/\x7bid\x7d" [("id", JVal.num 42)]
      [some c1IdParam] ≠
    build_url_py "https://api.example.com" "/users/\x7bid\x7d" [("id", JVal.num 42)] := by
  decide

/-! ## C2: the null-union invariant after normalization -/

/-- A `components.schemas` document whose schema `X` is itself a two-element
null-union (rather than having one inside `properties`). -/
def c2Spec : List (String × JVal) :=
  [("openapi", .str "3.0.0"),
   ("components", .obj [("schemas", .obj [("X", .obj
     [("anyOf", .arr [.obj [("type", .str "string")], .obj [("type", .str "null")]])])])])]

/-- C2 (counterexample): normalization leaves `c2Spec` unchanged — the schema
node `X` itself (reachable within `components.schemas`) still contains a
two-alternative `anyOf` with a `{type: "null"}` alternative, with no
`nullable: true` rewrite.  `fixNullTypes` only rewrites `properties.*`
entries, never the schema object itself (nor `items`). -/
theorem c2_root_anyOf_survives :
    preprocessSpecTree c2Spec = c2Spec ∧
    fixable [("anyOf", .arr [.obj [("type", .str "string")],
      .obj [("type", .str "null")]])] = true := by
  decide

/-- C2 (amended): after normalizing a `components.schemas` entry
(`fixNullTypes` then `removeNonStandardFields`), every node reachable through
one or more `properties.*` steps contains no fixable two-alternative null
`anyOf`; the schema object itself and `items` subtrees are not rewritten. -/
theorem c2_properties_reachable_no_null_union (g h : List (String × JVal))
    (hreach : PropReach (removeNSF (fixNullTypes g)) h) : fixable h = false :=
  procSchema_reach hreach

/-- A schema whose property `p` is a null-union, for the C2 witness. -/
def c2WitnessSchema : List (String × JVal) :=
  [("properties", .obj [("p", .obj [("anyOf",
    .arr [.obj [("type", .str "integer")], .obj [("type", .str "null")]])])])]

theorem c2_witness :
    fixable [("type", JVal.str "integer"), ("nullable", JVal.bool true)] = false :=
  c2_properties_reachable_no_null_union c2WitnessSchema
    [("type", JVal.str "integer"), ("nullable", JVal.bool true)]
    (PropReach.here
      (show lookupJ (removeNSF (fixNullTypes c2WitnessSchema)) "properties" =
        some (JVal.obj [("p", JVal.obj
          [("type", JVal.str "integer"), ("nullable", JVal.bool true)])]) by decide)
      (show ("p", JVal.obj [("type", JVal.str "integer"), ("nullable", JVal.bool true)])
        ∈ [("p", JVal.obj [("type", JVal.str "integer"), ("nullable", JVal.bool true)])]
        by decide))

/-! ## C3: determinism and ordering of the tool sequence -/

/-- A minimal operation for the ordering counterexample. -/
def c3Op : Operation := ⟨"s", "", [], none⟩

/-- C3 (counterexample): the tool sequence depends on the iteration order of
`doc.Paths.Map()`, a Go map whose iteration order is randomized per
invocation: two invocations receiving the two orders of the same two paths
produce different `ToolDefinition` sequences, so the sequence is neither
deterministic across invocations nor pinned to document declaration order. -/
theorem c3_order_dependent :
    processPathsIntoTools [("/a", [("get", some c3Op)]), ("/b", [("get", some c3Op)])] ≠
    processPathsIntoTools [("/b", [("get", some c3Op)]), ("/a", [("get", some c3Op)])] := by
  decide

theorem processOps_eq (p : String) (ops : List (String × Option Operation)) :
    processOps p ops = ops.filterMap (fun mo => mo.2.map (mkToolDef p mo.1)) := by
  induction ops with
  | nil => rfl
  | cons mo rest ih =>
    obtain ⟨m, o⟩ := mo
    cases o <;> simp [processOps, ih, List.filterMap_cons]

/-- C3 (amended): for a FIXED iteration order of `doc.Paths.Map()` and
`pathItem.Operations()`, `processPathsIntoTools` is deterministic and follows
that order exactly: one tool per non-nil operation, in sequence, each
depending only on its own `(path, method, operation)` triple.  The iteration
order itself is Go map order — randomized, not document declaration order. -/
theorem c3_tools_follow_iteration_order
    (paths : List (String × List (String × Option Operation))) :
    processPathsIntoTools paths =
      paths.flatMap (fun po => po.2.filterMap (fun mo => mo.2.map (mkToolDef po.1 mo.1))) := by
  induction paths with
  | nil => rfl
  | cons po rest ih =>
    obtain ⟨p, ops⟩ := po
    simp [processPathsIntoTools, ih, processOps_eq]

/-! ## C4: when normalization fails -/

/-- C4 (counterexample): `[]` is valid JSON, yet `preprocessOpenAPISpec`
fails on it — `json.Unmarshal` into `map[string]interface{}` rejects any JSON
document whose top level is not an object (JSON `null` excepted), so "error
iff the bytes are not decodable as JSON" is wrong. -/
theorem c4_json_array_rejected :
    preprocessOpenAPISpec (some (JVal.arr [])) =
      .error "error unmarshaling OpenAPI spec" := rfl

/-- C4 (amended): `preprocessOpenAPISpec` succeeds exactly when the input
bytes decode to a JSON object (or JSON `null`, which Go decodes into a nil
map); it errors on undecodable bytes and on any other decoded shape.  All
steps after the decode are total: they are plain functions on the decoded
tree with no error case. -/
theorem c4_ok_iff_object (d : Option JVal) :
    (∃ out, preprocessOpenAPISpec d = .ok out) ↔
      (d = some JVal.null ∨ ∃ fs, d = some (JVal.obj fs)) := by
  cases d with
  | none => simp [preprocessOpenAPISpec]
  | some v => cases v <;> simp [preprocessOpenAPISpec]

/-! ## C5: idempotence of normalization on conformant documents -/

/-- C5: normalization is idempotent on documents that are already `3.0.0` and
contain no null-unions.  Stated on the decoded tree: the interposed
re-encode/decode between two runs is the identity on decoded Go maps
(`json.Marshal` then `json.Unmarshal` round-trips the unordered map), which
the association-list embedding reflects. -/
theorem c5_normalize_idempotent (spec : List (String × JVal))
    (hnn : noNullUnionsF spec = true)
    (hver : lookupJ spec "openapi" = some (JVal.str "3.0.0")) :
    preprocessSpecTree (preprocessSpecTree spec) = preprocessSpecTree spec :=
  preprocessSpecTree_idem hnn hver

/-- A small already-3.0.0, null-union-free document for the C5 witness. -/
def c5Spec : List (String × JVal) :=
  [("openapi", .str "3.0.0"),
   ("components", .obj [("schemas", .obj [("U", .obj
     [("type", .str "object"),
      ("properties", .obj [("id", .obj [("type", .str "integer")])])])])]),
   ("paths", .obj [("/users", .obj [("get", .obj [("summary", .str "s")])])])]

theorem c5_witness :
    noNullUnionsF c5Spec = true ∧
    preprocessSpecTree (preprocessSpecTree c5Spec) = preprocessSpecTree c5Spec :=
  ⟨by decide, c5_normalize_idempotent c5Spec (by decide) (by decide)⟩

/-! ## C6: tool identifier derivation -/

/-- C6 (counterexample): `GET /users/{id}/posts` does NOT map to
`getUsers_idPosts`.  Go's `strings.Title` does not treat `_` as a word
separator ("ASCII alphanumerics and underscore are not separators"), so only
the first letter is title-cased: the actual identifier is
`getUsers_id_posts`. -/
theorem c6_users_id_posts :
    sanitizePathForToolID "/users/\x7bid\x7d/posts" "GET" ≠ "getUsers_idPosts" ∧
    sanitizePathForToolID "/users/\x7bid\x7d/posts" "GET" = "getUsers_id_posts" := by
  decide

/-- C6 (amended): the identifier derivation is the stated pure string
transform, with title-casing per Go's `strings.Title` (underscore is not a
word separator): `GET /users/{id}/posts` → `getUsers_id_posts` (not
`getUsers_idPosts`); the other three examples hold as stated. -/
theorem c6_examples :
    sanitizePathForToolID "/users/\x7bid\x7d/posts" "GET" = "getUsers_id_posts" ∧
    sanitizePathForToolID "/users/\x7bid\x7d" "GET" = "getUsers_id" ∧
    sanitizePathForToolID "/orders" "POST" = "postOrders" ∧
    sanitizePathForToolID "/a-b/\x7bc\x7d" "DELETE" = "deleteA_b_c" := by
  decide

/-! ## C7: when a body is constructed -/

/-- A POST operation that declares NO request body (`hasBody` false). -/
def c7Op : Operation := ⟨"", "", [], none⟩

/-- C7 (counterexample): the live request path never consults `hasBody`.
A POST operation with no declared request body (`hasBodyOp = false`) still
gets a body — the leftover arguments are JSON-encoded — contradicting "for
every tool with hasBody false and every argument map, the planned request has
no body". -/
theorem c7_body_without_hasBody :
    hasBodyOp c7Op = false ∧
    (createHTTPRequest "POST" "http://h/p" [("name", JVal.str "x")] c7Op).body =
      some "\x7b\"name\":\"x\"\x7d" := by
  decide

/-- C7 (amended): `createHTTPRequest` attaches a body exactly when the HTTP
method is POST, PUT or PATCH and either an explicit `body` argument is present
or some argument is not claimed by a path/query parameter; the operation's
`requestBody` (`hasBody`) plays no role. -/
theorem c7_body_iff (m u : String) (args : List (String × JVal)) (op : Operation) :
    (createHTTPRequest m u args op).body ≠ none ↔
      ((m = "POST" ∨ m = "PUT" ∨ m = "PATCH") ∧
        (lookupJ args "body" ≠ none ∨ nonPathQueryArgs op args ≠ [])) := by
  simp only [createHTTPRequest]
  by_cases hm : (m = "POST" || m = "PUT" || m = "PATCH") = true
  · rw [if_pos hm]
    simp only [Bool.or_eq_true, decide_eq_true_eq] at hm
    cases hb : lookupJ args "body" with
    | none =>
      simp only [hb]
      by_cases he : (nonPathQueryArgs op args).isEmpty
      · rw [if_pos he]
        rw [List.isEmpty_iff] at he
        simp [he]
      · rw [if_neg he]
        rw [List.isEmpty_iff] at he
        simp [he]
        tauto
    | some v =>
      cases v <;> (simp [hb]; tauto)
  · rw [if_neg hm]
    simp only [Bool.or_eq_true, decide_eq_true_eq] at hm
    simp
    tauto

/-! ## C8: the three-tier body fallback -/

/-- A GET operation that DOES declare a request body with a schema. -/
def c8Op : Operation := ⟨"", "", [], some ⟨true, "", [("application/json", true)]⟩⟩

/-- C8 (counterexample): for a body-carrying tool (`hasBodyOp = true`) whose
method is GET, the planner ignores the explicit string `body` argument
entirely and attaches no body — the fallback only runs for POST/PUT/PATCH. -/
theorem c8_get_body_dropped :
    hasBodyOp c8Op = true ∧
    (createHTTPRequest "GET" "http://h/p" [("body", JVal.str "hi")] c8Op).body =
      none := by
  decide

/-- C8 (amended): for POST/PUT/PATCH requests the three-tier fallback holds —
an explicit string `body` argument is used byte-for-byte, any other `body`
argument is JSON-encoded, and otherwise the arguments not claimed by a
path/query parameter are JSON-encoded as an object, except that when no such
argument remains, no body is attached at all (rather than an empty object). -/
theorem c8_body_three_tier (m u : String) (args : List (String × JVal))
    (op : Operation) (hm : m = "POST" ∨ m = "PUT" ∨ m = "PATCH") :
    (∀ s, lookupJ args "body" = some (JVal.str s) →
      (createHTTPRequest m u args op).body = some s) ∧
    (∀ v, lookupJ args "body" = some v → (∀ s, v ≠ JVal.str s) →
      (createHTTPRequest m u args op).body = some (jsonEncode v)) ∧
    (lookupJ args "body" = none →
      (createHTTPRequest m u args op).body =
        (if (nonPathQueryArgs op args).isEmpty then none
         else some (jsonEncode (JVal.obj (nonPathQueryArgs op args))))) := by
  have hm' : (m = "POST" || m = "PUT" || m = "PATCH") = true := by
    simp only [Bool.or_eq_true, decide_eq_true_eq]
    tauto
  refine ⟨?_, ?_, ?_⟩
  · intro s hb
    simp [createHTTPRequest, hm', hb]
  · intro v hb hns
    cases v with
    | str s => exact absurd rfl (hns s)
    | null => simp [createHTTPRequest, hm', hb]
    | bool b => simp [createHTTPRequest, hm', hb]
    | num n => simp [createHTTPRequest, hm', hb]
    | arr xs => simp [createHTTPRequest, hm', hb]
    | obj fs => simp [createHTTPRequest, hm', hb]
  · intro hb
    simp [createHTTPRequest, hm', hb]

theorem c8_witness :
    (createHTTPRequest "POST" "u" [("name", JVal.str "x"), ("age", JVal.num 3)]
      c7Op).body = some "\x7b\"age\":3,\"name\":\"x\"\x7d" := by
  have h := (c8_body_three_tier "POST" "u"
    [("name", JVal.str "x"), ("age", JVal.num 3)] c7Op (Or.inl rfl)).2.2 (by decide)
  exact h.trans (by decide)

/-! ## C9: query-string construction -/

def c9ZParam : ParamSpec := ⟨"z", "query", false, "", some ⟨"integer", []⟩⟩
def c9AParam : ParamSpec := ⟨"a", "query", false, "", some ⟨"integer", []⟩⟩

/-- C9 (counterexample): with query parameters declared in the order `z`, `a`,
the query string comes out `a=2&z=1` — `url.Values.Encode` sorts by key — not
the declaration order `z=1&a=2` the claim states. -/
theorem c9_query_not_declaration_order :
    buildURL "http://h" "/p" [("z", JVal.num 1), ("a", JVal.num 2)]
      [some c9ZParam, some c9AParam] = "http://h/p?a=2&z=1" ∧
    buildURL "http://h" "/p" [("z", JVal.num 1), ("a", JVal.num 2)]
      [some c9ZParam, some c9AParam] ≠ "http://h/p?z=1&a=2" := by
  decide

/-- C9 (amended): the query parameters present in `args` are appended
percent-encoded, but sorted by parameter name (stably, byte-wise — the order
`url.Values.Encode` produces), not in declaration order: the query string
renders a sorted permutation of the declared-order collection. -/
theorem c9_query_sorted_permutation (base path : String)
    (params : List (Option ParamSpec)) (args : List (String × JVal)) :
    ∃ l : List (String × String),
      (collectQuery params args).Perm l ∧
      l.Sorted (fun a b => a.1 ≤ b.1) ∧
      buildURL base path args params =
        (let bp := joinBase base (substPathParams path args params)
         let q := joinSep "&" (l.map (fun kv =>
           queryEscape kv.1 ++ "=" ++ queryEscape kv.2))
         if q = "" then bp.1 ++ bp.2 else bp.1 ++ bp.2 ++ "?" ++ q) := by
  refine ⟨sortByKey (collectQuery params args), ?_, ?_, rfl⟩
  · exact (List.perm_insertionSort _ _).symm
  · have h := List.sorted_insertionSort (fun a b : String × String => keyLeB a b = true)
      (collectQuery params args)
    exact h.imp (fun hab => by
      have := hab
      simpa [keyLeB, strLeB_iff] using this)

/-! ## C10: the mock response when no service URL is configured -/

/-- C10: with an empty configured service base URL, the live tool handler
performs no HTTP request (the outcome is the `mock` branch, never `call`) and
returns, with nil error, exactly
`"Mock response for <METHOD> <path>\nParams: "` followed by the `%v`
rendering of the arguments. -/
theorem c10_mock_when_no_service_url (auth path method : String)
    (op : Operation) (args : List (String × JVal)) :
    createToolHandlerPlan "" auth path method op args =
      .mock ("Mock response for " ++ method ++ " " ++ path ++ "\nParams: "
        ++ goFmtV (.obj args)) ∧
    ∀ req a, createToolHandlerPlan "" auth path method op args ≠ .call req a := by
  constructor
  · simp [createToolHandlerPlan]
  · intro req a
    simp [createToolHandlerPlan]
